import Mathlib

/-!
Verification development for the content-analysis pipeline of the
youtube-mindmap-tool repository (backend/app/services/content_analysis).

The Python source is shallowly embedded: Python floats are modelled as
exact rationals, Python lists as Lean lists, and the in-place mutation of
transcript segments in preprocessing is modelled by explicit state passing.
Regular-expression operations of the analyzer are modelled by structurally
recursive scanners that implement the exact leftmost, non-overlapping
substitution semantics of re.sub for the concrete patterns the source uses.
The analyzer is modelled in its deterministic fallback configuration
(has_nltk = False), which the spec designates as the required fallback
strategy: regex tokenizer, fixed stop-word set, regex sentence splitting.
-/

/-- ASCII whitespace recognized by Python str.strip and the regex class
used in the cleaner (space, tab, newline, carriage return, vertical tab,
form feed). -/
def isPySpace (c : Char) : Bool :=
  c = ' ' || c = '\t' || c = '\n' || c = '\r' || c = '\x0b' || c = '\x0c'

/-- Word character of the regex escape used by the filler patterns and the
tokenizer (ASCII letters, digits, underscore). -/
def isWordChar (c : Char) : Bool :=
  c.isAlpha || c.isDigit || c = '_'

/-- Python str.strip on a character list: drop whitespace from both ends. -/
def pyStripList (l : List Char) : List Char :=
  ((l.dropWhile isPySpace).reverse.dropWhile isPySpace).reverse

/-- Collapse every whitespace run to a single space character.  The flag
records whether the previous character was whitespace, mirroring how
re.sub with a whitespace-run pattern replaces each maximal run once. -/
def collapseWsAux : Bool → List Char → List Char
  | _, [] => []
  | prevSpace, c :: cs =>
    if isPySpace c then
      if prevSpace then collapseWsAux true cs
      else ' ' :: collapseWsAux true cs
    else c :: collapseWsAux false cs

/-- Step (a) of the cleaner: strip the ends, then collapse whitespace runs,
as in the source line re.sub of a whitespace-run pattern over text.strip(). -/
def normalizeWs (l : List Char) : List Char :=
  collapseWsAux false (pyStripList l)

/-- Case-insensitive literal match of alt at the head of l
(the source compiles its filler patterns with re.IGNORECASE). -/
def ciStartsWith : List Char → List Char → Bool
  | [], _ => true
  | _ :: _, [] => false
  | a :: as, c :: cs => (c.toLower = a) && ciStartsWith as cs

/-- Try to match one filler alternative at the head of l.  All the source's
alternatives begin and end with a word character, so the trailing word
boundary of the pattern holds exactly when the next character after the
literal is absent or not a word character.  Returns the matched length. -/
def matchAltLen (l : List Char) (alt : List Char) : Option Nat :=
  match alt with
  | [] => none
  | _ :: _ =>
    if ciStartsWith alt l then
      match (l.drop alt.length).head? with
      | some d => if isWordChar d then none else some alt.length
      | none => some alt.length
    else none

/-- First alternative (in pattern order) matching at the head of l,
as regex alternation tries alternatives left to right. -/
def tryMatchLen (alts : List (List Char)) (l : List Char) : Option Nat :=
  alts.findSome? (matchAltLen l)

/-- One re.sub pass for a word-boundary-delimited alternation pattern,
replacing each leftmost non-overlapping match with a single space.
The counter skips over the remainder of a match already replaced; the
boolean records whether the previous original character was a word
character (the leading word boundary).  After a replaced match the next
original character is never a word character (the trailing boundary of the
match), so no alternative can start there and resetting the flag to false
is observationally equal to tracking the matched text's last character. -/
def subAltsGo (alts : List (List Char)) : Nat → Bool → List Char → List Char
  | _ + 1, _, [] => []
  | 0, _, [] => []
  | k + 1, _, _ :: cs => subAltsGo alts k false cs
  | 0, prevWord, c :: cs =>
    if prevWord then c :: subAltsGo alts 0 (isWordChar c) cs
    else
      match tryMatchLen alts (c :: cs) with
      | some k => ' ' :: subAltsGo alts (k - 1) false cs
      | none => c :: subAltsGo alts 0 (isWordChar c) cs

/-- re.sub of a word-boundary alternation pattern by a single space. -/
def subAlts (alts : List (List Char)) (l : List Char) : List Char :=
  subAltsGo alts 0 false l

/-- Index of the first occurrence of a character. -/
def firstIdx (a : Char) : List Char → Option Nat
  | [] => none
  | c :: cs => if c = a then some 0 else (firstIdx a cs).map (· + 1)

/-- One re.sub pass for a non-greedy bracketed-span pattern (opening
character, any run, first closing character), replacing each leftmost
match with a single space.  An opening character with no closing character
anywhere after it starts no match, and then no later opening character can
find one either, so scanning past it is faithful. -/
def subSpanGo (op cl : Char) : Nat → List Char → List Char
  | _ + 1, [] => []
  | 0, [] => []
  | k + 1, _ :: cs => subSpanGo op cl k cs
  | 0, c :: cs =>
    if c = op then
      match firstIdx cl cs with
      | some i => ' ' :: subSpanGo op cl (i + 1) cs
      | none => c :: subSpanGo op cl 0 cs
    else c :: subSpanGo op cl 0 cs

/-- re.sub of a non-greedy span pattern by a single space. -/
def subSpan (op cl : Char) (l : List Char) : List Char :=
  subSpanGo op cl 0 l

/-- The filler word alternatives of the first filler pattern. -/
def wordFillers : List (List Char) :=
  [['u','m'], ['u','h'], ['a','h'], ['e','r'], ['h','m','m'], ['e','h']]

/-- The filler phrase alternatives of the second filler pattern. -/
def phraseFillers : List (List Char) :=
  [['y','o','u',' ','k','n','o','w'], ['l','i','k','e'],
   ['b','a','s','i','c','a','l','l','y'], ['a','c','t','u','a','l','l','y']]

/-- The cleaner over character lists: whitespace normalization, the two
filler alternation passes, bracketed and parenthetical span removal, and
a final whitespace normalization, in the source's order.  At the span
passes the text contains no newline (normalization replaced every
whitespace character by a space), so the any-character class of the span
patterns matching everything but newline is matched faithfully. -/
def cleanList (l : List Char) : List Char :=
  let t1 := normalizeWs l
  let t2 := subAlts wordFillers t1
  let t3 := subAlts phraseFillers t2
  let t4 := subSpan '[' ']' t3
  let t5 := subSpan '(' ')' t4
  normalizeWs t5

/-- The analyzer's clean-and-normalize text transform. -/
def cleanText (s : String) : String :=
  String.mk (cleanList s.data)

/-- Python str.strip on strings. -/
def pyStripS (s : String) : String :=
  String.mk (pyStripList s.data)

/-- Python str.lower (ASCII model, via Char.toLower). -/
def lowerS (s : String) : String :=
  String.mk (s.data.map Char.toLower)

/-- Maximal word-character runs of a character list, the fallback
tokenizer's regex findall of word-boundary-delimited word runs.  The
accumulator collects the current run in reverse. -/
def wordRunsAux : List Char → List Char → List String
  | [], cur => if cur.isEmpty then [] else [String.mk cur.reverse]
  | c :: cs, cur =>
    if isWordChar c then wordRunsAux cs (c :: cur)
    else if cur.isEmpty then wordRunsAux cs []
    else String.mk cur.reverse :: wordRunsAux cs []

/-- The analyzer's fallback tokenizer: lowercase, then word runs. -/
def tokenize (s : String) : List String :=
  wordRunsAux (s.data.map Char.toLower) []

/-- Python str.split with no separator: maximal non-whitespace runs. -/
def splitWsAux : List Char → List Char → List String
  | [], cur => if cur.isEmpty then [] else [String.mk cur.reverse]
  | c :: cs, cur =>
    if isPySpace c then
      if cur.isEmpty then splitWsAux cs [] else String.mk cur.reverse :: splitWsAux cs []
    else splitWsAux cs (c :: cur)

/-- Python str.split() on a string. -/
def pySplitWs (s : String) : List String :=
  splitWsAux s.data []

/-- The analyzer's fallback stop-word set. -/
def stopWords : List String :=
  ["a", "an", "and", "are", "as", "at", "be", "by", "for", "from",
   "has", "he", "in", "is", "it", "its", "of", "on", "that", "the",
   "to", "was", "were", "will", "with", "you", "your", "this", "they",
   "we", "can", "could", "should", "would", "have", "had", "do", "does",
   "did", "going", "so", "now", "well", "like", "just", "get", "got"]

/-- First occurrences of the elements of a list, in order (the iteration
order of a Python Counter, which preserves first-insertion order). -/
def dedupFirstAux : List String → List String → List String
  | _, [] => []
  | seen, w :: ws =>
    if seen.contains w then dedupFirstAux seen ws
    else w :: dedupFirstAux (w :: seen) ws

/-- First occurrences of the elements of a list, in order. -/
def dedupFirst (l : List String) : List String :=
  dedupFirstAux [] l

/-- Insert a counted item into a count-descending list, after every item
of greater or equal count: the stable descending order produced by
Counter.most_common over insertion order. -/
def insertRanked (x : String × Nat) : List (String × Nat) → List (String × Nat)
  | [] => [x]
  | y :: ys => if x.2 ≤ y.2 then y :: insertRanked x ys else x :: y :: ys

/-- Counter(l).most_common(): distinct items with multiplicities, sorted
by count descending, ties kept in first-occurrence order. -/
def rankByCount (l : List String) : List (String × Nat) :=
  (dedupFirst l).foldl (fun acc w => insertRanked (w, l.count w) acc) []

/-- Counter(l).most_common(n) keys. -/
def mostCommon (n : Nat) (l : List String) : List String :=
  ((rankByCount l).take n).map Prod.fst

/-- extract_topics in the fallback (no POS tagging) path: tokenize the
lowered content, drop stop words and words of length at most 2, take the
five most frequent. -/
def extractTopics (content : String) : List String :=
  let words := (tokenize (lowerS content)).filter
    (fun w => !(stopWords.contains w) && 2 < w.length)
  mostCommon 5 words

/-- extract_keywords: tokenize the lowered content, drop stop words and
words of length at most 2, keep alphabetic words of length below 20, take
the most frequent up to the keyword budget. -/
def extractKeywords (content : String) (maxKeywords : Nat) : List String :=
  let words := (tokenize (lowerS content)).filter
    (fun w => !(stopWords.contains w) && 2 < w.length)
  let words := words.filter
    (fun w => w.length < 20 && !w.data.isEmpty && w.data.all Char.isAlpha)
  mostCommon maxKeywords words

/-- Fallback sentence splitting scan: split at each maximal run of
sentence delimiters (re.split on a delimiter-run pattern splits once per
maximal run).  The flag records whether the previous character was a
delimiter; the accumulator collects the current fragment in reverse. -/
def splitSenGo : Bool → List Char → List Char → List (List Char)
  | _, [], cur => [cur.reverse]
  | prevDelim, c :: cs, cur =>
    if c = '.' || c = '!' || c = '?' then
      if prevDelim then splitSenGo true cs cur
      else cur.reverse :: splitSenGo true cs []
    else splitSenGo false cs (c :: cur)

/-- split_sentences fallback: split on sentence-delimiter runs, strip each
fragment, drop the empty ones. -/
def splitSentences (text : String) : List String :=
  ((splitSenGo false text.data []).map (fun f => pyStripList f)).filterMap
    (fun f => if f.isEmpty then none else some (String.mk f))

/-- get_word_frequencies: frequency of one word in the filtered token list
of a text, normalized by the maximal count (1 when the list is empty);
words outside the list get frequency 0, as dict.get with default 0. -/
def wordFreq (text : String) (w : String) : ℚ :=
  let words := (tokenize (lowerS text)).filter
    (fun w => !(stopWords.contains w) && 2 < w.length)
  let maxCount := max 1 ((words.map (fun v => words.count v)).foldr max 0)
  (words.count w : ℚ) / (maxCount : ℚ)

/-- Python slicing s[:n]. -/
def pyTakeS (n : Nat) (s : String) : String :=
  String.mk (s.data.take n)

/-- The score of one sentence in generate_summary: sum of normalized word
frequencies of its non-stop-word tokens (tokens filtered out of the
frequency dict contribute 0). -/
def sentenceScore (content sentence : String) : ℚ :=
  (((tokenize (lowerS sentence)).filter (fun w => !(stopWords.contains w))).map
    (wordFreq content)).sum

/-- Python max over a nonempty list keyed on the first component: the
first element whose key is maximal (a later element replaces the current
best only when strictly greater). -/
def pyMaxByFst : (ℚ × String) → List (ℚ × String) → (ℚ × String)
  | best, [] => best
  | best, x :: rest => pyMaxByFst (if best.1 < x.1 then x else best) rest

/-- The scored sentence list of generate_summary: each sentence paired
with score times positional boost 1 - (index / total) * 3/10. -/
def scoredSentences (content : String) (sentences : List String) : List (ℚ × String) :=
  sentences.enum.map (fun p =>
    (sentenceScore content p.2 * (1 - ((p.1 : ℚ) / (sentences.length : ℚ)) * (3/10)), p.2))

/-- generate_summary: zero sentences yield the truncated content with the
ellipsis marker appended unconditionally; one sentence is truncated with
the marker exactly when too long; otherwise the first highest-scoring
sentence is selected and truncated likewise. -/
def generateSummary (content : String) (maxLength : Nat) : String :=
  match splitSentences content with
  | [] => pyTakeS maxLength content ++ "..."
  | [s] => if maxLength < s.length then pyTakeS maxLength s ++ "..." else s
  | s0 :: s1 :: rest =>
    match scoredSentences content (s0 :: s1 :: rest) with
    | [] => pyTakeS maxLength content ++ "..."
    | x :: xs =>
      let best := (pyMaxByFst x xs).2
      if maxLength < best.length then pyTakeS maxLength best ++ "..." else best

/-- Mind map node types (the subtopic kind is declared by the source but
never produced by the 3-level builder). -/
inductive NodeType where
  | root
  | topic
  | subtopic
  | detail
deriving DecidableEq, Repr

/-- Content types for different analysis approaches. -/
inductive ContentType where
  | educational
  | entertainment
  | news
  | tutorial
  | discussion
  | review
deriving DecidableEq, Repr

/-- Configuration for content analysis (floats as exact rationals). -/
structure AnalysisConfig where
  max_depth : Nat
  min_segment_duration : ℚ
  max_segment_duration : ℚ
  content_type : ContentType
  language : String
  use_llm : Bool
  llm_model : String
  confidence_threshold : ℚ
  importance_threshold : ℚ
deriving DecidableEq, Repr

/-- The default AnalysisConfig of the source dataclass. -/
def defaultConfig : AnalysisConfig :=
  ⟨4, 10, 300, ContentType.educational, "en", true, "gpt-3.5-turbo", 7/10, 1/2⟩

/-- Single transcript segment with timing (input type of the pipeline). -/
structure TranscriptSegment where
  id : Int
  start_time : ℚ
  end_time : ℚ
  text : String
  confidence : Option ℚ
  language : Option String
deriving DecidableEq, Repr

/-- Transcript result, restricted to the fields the analyzer reads
(video_id, segments, language; duration is the derived property). -/
structure TranscriptResult where
  video_id : String
  segments : List TranscriptSegment
  language : Option String
deriving DecidableEq, Repr

/-- The duration property of a transcript result: 0 without segments,
otherwise the maximal segment end time. -/
def transcriptDuration (t : TranscriptResult) : ℚ :=
  match t.segments.map (fun s => s.end_time) with
  | [] => 0
  | x :: xs => xs.foldl max x

/-- Analyzed content segment. -/
structure ContentSegment where
  id : String
  content : String
  timestamp_start : ℚ
  timestamp_end : ℚ
  topics : List String
  keywords : List String
  summary : String
  importance : ℚ
  confidence : ℚ
  word_count : Nat
deriving DecidableEq, Repr

/-- Topic hierarchy entry.  The subtopics field of the source dataclass is
omitted: the core pipeline always constructs it as the empty list and
never reads it. -/
structure TopicHierarchy where
  topic : String
  confidence : ℚ
  importance : ℚ
  keywords : List String
  segments : List String
deriving DecidableEq, Repr

/-- Mind map node record before storage. -/
structure MindMapNodeData where
  id : String
  video_id : String
  parent_node_id : Option String
  content : String
  summary : String
  timestamp_start : ℚ
  timestamp_end : ℚ
  node_type : NodeType
  depth : Nat
  keywords : List String
  position_x : Option ℚ
  position_y : Option ℚ
  confidence : Option ℚ
  importance : Option ℚ
  word_count : Option Nat
  children : List String
deriving DecidableEq, Repr

/-- The analysis_metadata dict written by analyze_transcript, as a record
of its six keys. -/
structure AnalysisMetadata where
  segments_count : Nat
  topics_count : Nat
  nodes_count : Nat
  max_depth : Nat
  language : Option String
  analyzer_version : String
deriving DecidableEq, Repr

/-- Complete mind map structure. -/
structure MindMapStructure where
  video_id : String
  nodes : List MindMapNodeData
  content_type : ContentType
  analysis_metadata : AnalysisMetadata
  total_duration : ℚ
  processing_time : ℚ
  confidence_score : ℚ
deriving DecidableEq, Repr

/-- Result of preprocess_segments with the frame effect made explicit:
processed is the returned filtered list, and segmentsAfter is the state of
the caller's segment list after the call.  The loop mutates each retained
segment in place (overwriting text with the cleaned text) before appending
it to the result, so the mutated record appears in both lists; segments
dropped by the 10-character minimum are skipped before the assignment and
stay untouched in the caller's list. -/
structure PreprocessResult where
  processed : List TranscriptSegment
  segmentsAfter : List TranscriptSegment
deriving DecidableEq, Repr

/-- preprocess_segments with explicit state passing. -/
def preprocessSegments : List TranscriptSegment → PreprocessResult
  | [] => ⟨[], []⟩
  | s :: rest =>
    let cleaned := cleanText s.text
    let r := preprocessSegments rest
    if (pyStripS cleaned).length < 10 then ⟨r.processed, s :: r.segmentsAfter⟩
    else
      let s2 : TranscriptSegment := {s with text := cleaned}
      ⟨s2 :: r.processed, s2 :: r.segmentsAfter⟩

/-- Python truthiness fallback of the source line taking the segment
confidence or 0.8: None and 0.0 are falsy, so both yield 0.8. -/
def pyOrConf : Option ℚ → ℚ
  | none => 8/10
  | some v => if v = 0 then 8/10 else v

/-- calculate_importance of the base analyzer: weighted sum of word-count,
confidence and duration factors, capped above at 1 (the source applies min
with 1 only). -/
def calculateImportance (seg : ContentSegment) : ℚ :=
  let wordCountFactor := min ((seg.word_count : ℚ) / 100) 1
  let confidenceFactor := seg.confidence
  let durationFactor := min ((seg.timestamp_end - seg.timestamp_start) / 60) 1
  min (wordCountFactor * (3/10) + confidenceFactor * (4/10) + durationFactor * (3/10)) 1

/-- One content segment of create_content_segments: built with the
placeholder importance 1/2, then finalized with calculate_importance of
itself (the two-phase importance assignment). -/
def mkContentSegment (i : Nat) (s : TranscriptSegment) : ContentSegment :=
  let base : ContentSegment :=
    { id := "seg_" ++ toString i
      content := s.text
      timestamp_start := s.start_time
      timestamp_end := s.end_time
      topics := extractTopics s.text
      keywords := extractKeywords s.text 10
      summary := generateSummary s.text 100
      importance := 1/2
      confidence := pyOrConf s.confidence
      word_count := (pySplitWs s.text).length }
  {base with importance := calculateImportance base}

/-- create_content_segments from a running enumeration index. -/
def createContentSegmentsFrom : Nat → List TranscriptSegment → List ContentSegment
  | _, [] => []
  | i, s :: rest => mkContentSegment i s :: createContentSegmentsFrom (i + 1) rest

/-- create_content_segments. -/
def createContentSegments (segs : List TranscriptSegment) : List ContentSegment :=
  createContentSegmentsFrom 0 segs

/-- Python " ".join. -/
def joinSpace (l : List String) : String :=
  String.intercalate " " l

/-- extract_topic_hierarchy: pool all segment topics, rank by total count
(Counter.most_common order), retain at most 10, and build one hierarchy
per retained topic from its associated segments. -/
def extractTopicHierarchy (segs : List ContentSegment) : List TopicHierarchy :=
  let allTopics := (segs.map (fun s => s.topics)).flatten
  let mainTopics := (rankByCount allTopics).take 10
  mainTopics.map (fun p =>
    let relatedSegments := (segs.filter (fun s => s.topics.contains p.1)).map (fun s => s.id)
    let confidence := min ((p.2 : ℚ) / (segs.length : ℚ)) 1
    let importance :=
      ((segs.filter (fun s => relatedSegments.contains s.id)).map (fun s => s.importance)).sum /
        ((max relatedSegments.length 1 : Nat) : ℚ)
    let topicContent :=
      joinSpace ((segs.filter (fun s => relatedSegments.contains s.id)).map (fun s => s.content))
    { topic := p.1
      confidence := confidence
      importance := importance
      keywords := extractKeywords topicContent 5
      segments := relatedSegments })

/-- Python max over a mapped list with a default for the empty case. -/
def listMaxD (d : ℚ) (l : List ℚ) : ℚ :=
  match l with
  | [] => d
  | x :: xs => xs.foldl max x

/-- Python min over a mapped list with a default for the empty case. -/
def listMinD (d : ℚ) (l : List ℚ) : ℚ :=
  match l with
  | [] => d
  | x :: xs => xs.foldl min x

/-- Python max over Nat with a default for the empty case. -/
def natListMaxD (d : Nat) (l : List Nat) : Nat :=
  match l with
  | [] => d
  | x :: xs => xs.foldl max x

/-- One detail node of the tree builder, for a qualifying segment under
the topic node with the given id, at running node index n.  Node ids come
from generate_node_id, modelled by the abstract id generator genId applied
to the running index (the source id embeds the video id, the index and a
random uuid fragment; only the index varies within a run). -/
def mkDetailNode (genId : Nat → String) (vid : String) (topicId : String)
    (s : ContentSegment) (n : Nat) : MindMapNodeData :=
  { id := genId n
    video_id := vid
    parent_node_id := some topicId
    content := s.content
    summary := s.summary
    timestamp_start := s.timestamp_start
    timestamp_end := s.timestamp_end
    node_type := NodeType.detail
    depth := 2
    keywords := s.keywords
    position_x := none
    position_y := none
    confidence := some s.confidence
    importance := some s.importance
    word_count := some s.word_count
    children := [] }

/-- The detail nodes for the qualifying-segment list of one topic, with
consecutive node indexes from n. -/
def mkDetails (genId : Nat → String) (vid : String) (topicId : String) :
    Nat → List ContentSegment → List MindMapNodeData
  | _, [] => []
  | n, s :: rest => mkDetailNode genId vid topicId s n :: mkDetails genId vid topicId (n + 1) rest

/-- The detail-node loop of the tree builder: iterate the topic's
associated segments in order, create a detail node (consuming one node
index) exactly for the segments whose importance strictly exceeds the
threshold; returns the created nodes and the next free node index. -/
def buildDetails (genId : Nat → String) (vid : String) (thr : ℚ) (topicId : String) :
    List ContentSegment → Nat → List MindMapNodeData × Nat
  | [], n => ([], n)
  | s :: rest, n =>
    if thr < s.importance then
      let r := buildDetails genId vid thr topicId rest (n + 1)
      (mkDetailNode genId vid topicId s n :: r.1, r.2)
    else buildDetails genId vid thr topicId rest n

/-- The topic-node loop of the tree builder: for each hierarchy, in rank
order, create the topic node (parented to the root) followed by its detail
nodes; the topic node's children list holds its detail node ids in
creation order.  Returns the created nodes in creation order, the topic
node ids in creation order (the ids appended to the root's children), and
the next free node index. -/
def buildTopicBlocks (genId : Nat → String) (vid : String) (thr : ℚ)
    (segs : List ContentSegment) (rootId : String) :
    List TopicHierarchy → Nat → List MindMapNodeData × List String × Nat
  | [], n => ([], [], n)
  | h :: hs, n =>
    let tsegs := segs.filter (fun s => h.segments.contains s.id)
    let tid := genId n
    let d := buildDetails genId vid thr tid tsegs (n + 1)
    let topicContent := joinSpace (tsegs.map (fun s => s.content))
    let tnode : MindMapNodeData :=
      { id := tid
        video_id := vid
        parent_node_id := some rootId
        content := topicContent
        summary := generateSummary topicContent 200
        timestamp_start := listMinD 0 (tsegs.map (fun s => s.timestamp_start))
        timestamp_end := listMaxD 0 (tsegs.map (fun s => s.timestamp_end))
        node_type := NodeType.topic
        depth := 1
        keywords := h.keywords
        position_x := none
        position_y := none
        confidence := some h.confidence
        importance := some h.importance
        word_count := some ((tsegs.map (fun s => s.word_count)).sum)
        children := d.1.map (fun nd => nd.id) }
    let rest := buildTopicBlocks genId vid thr segs rootId hs d.2
    (tnode :: (d.1 ++ rest.1), tid :: rest.2.1, rest.2.2)

/-- The root node of the tree builder (node index 0); its children list
holds the topic node ids, appended as the topic nodes were created. -/
def mkRootNode (genId : Nat → String) (vid : String) (segs : List ContentSegment)
    (hiers : List TopicHierarchy) (topicIds : List String) : MindMapNodeData :=
  let rootContent := "Content analysis for video " ++ vid
  { id := genId 0
    video_id := vid
    parent_node_id := none
    content := rootContent
    summary := "Mind map overview with " ++ toString hiers.length ++ " main topics"
    timestamp_start := 0
    timestamp_end := listMaxD 0 (segs.map (fun s => s.timestamp_end))
    node_type := NodeType.root
    depth := 0
    keywords := ["overview", "analysis", "mindmap"]
    position_x := none
    position_y := none
    confidence := some (9/10)
    importance := some 1
    word_count := some (pySplitWs rootContent).length
    children := topicIds }

/-- build_mind_map_nodes: the root node followed by the topic blocks. -/
def buildMindMapNodes (genId : Nat → String) (vid : String) (thr : ℚ)
    (segs : List ContentSegment) (hiers : List TopicHierarchy) : List MindMapNodeData :=
  let b := buildTopicBlocks genId vid thr segs (genId 0) hiers 1
  mkRootNode genId vid segs hiers b.2.1 :: b.1

/-- The position assignment for the node at list index i: its index among
the nodes of its depth level (in list order, matching the insertion-order
grouping dict of the source) and the size of that level determine the
horizontal slot; the vertical offset is depth times the row height. -/
def setPosition (nodes : List MindMapNodeData) (i : Nat) (nd : MindMapNodeData) :
    MindMapNodeData :=
  let levelCount := (nodes.filter (fun m => m.depth = nd.depth)).length
  let idx := ((nodes.take i).filter (fun m => m.depth = nd.depth)).length
  let spacing : ℚ := 800 / ((max levelCount 1 : Nat) : ℚ)
  {nd with
    position_x := some ((idx : ℚ) * spacing + spacing / 2)
    position_y := some ((nd.depth : ℚ) * 200)}

/-- calculate_node_positions, walking the list with its index. -/
def calcPositionsFrom (nodes : List MindMapNodeData) :
    Nat → List MindMapNodeData → List MindMapNodeData
  | _, [] => []
  | i, nd :: rest => setPosition nodes i nd :: calcPositionsFrom nodes (i + 1) rest

/-- calculate_node_positions (pure counterpart of the in-place update). -/
def calculateNodePositions (nodes : List MindMapNodeData) : List MindMapNodeData :=
  calcPositionsFrom nodes 0 nodes

/-- calculate_overall_confidence: mean of the non-null node confidences,
0.7 when none exists. -/
def calculateOverallConfidence (nodes : List MindMapNodeData) : ℚ :=
  let confidences := nodes.filterMap (fun nd => nd.confidence)
  if confidences.isEmpty then 7/10
  else confidences.sum / (confidences.length : ℚ)

/-- analyze_transcript: the five pipeline steps and the final structure.
Wall-clock processing time is modelled as a parameter; the exception
wrapper of the source is not modelled because every stage of the embedded
pipeline is total (the only fallible source expression, the division by
the segment count in the hierarchy extractor, runs only with a nonempty
segment list). -/
def analyzeTranscript (genId : Nat → String) (cfg : AnalysisConfig)
    (processingTime : ℚ) (t : TranscriptResult) : MindMapStructure :=
  let segments := (preprocessSegments t.segments).processed
  let contentSegments := createContentSegments segments
  let topicHierarchy := extractTopicHierarchy contentSegments
  let nodes0 := buildMindMapNodes genId t.video_id cfg.importance_threshold
    contentSegments topicHierarchy
  let nodes := calculateNodePositions nodes0
  { video_id := t.video_id
    nodes := nodes
    content_type := cfg.content_type
    analysis_metadata :=
      { segments_count := contentSegments.length
        topics_count := topicHierarchy.length
        nodes_count := nodes.length
        max_depth := natListMaxD 0 (nodes.map (fun nd => nd.depth))
        language := t.language
        analyzer_version := "1.0.0" }
    total_duration := transcriptDuration t
    processing_time := processingTime
    confidence_score := calculateOverallConfidence nodes }

/-- Erase the layout coordinates of a node: the layout engine writes only
these two fields, so node lists are compared through this projection. -/
def noPos (nd : MindMapNodeData) : MindMapNodeData :=
  {nd with position_x := none, position_y := none}

/-- The scan relation behind the tree invariant: every scanned node has a
non-null parent id equal to the id of a node already seen (created
earlier), with depth one more than that node's depth. -/
def parentLinkedEarlier : List MindMapNodeData → List MindMapNodeData → Prop
  | _, [] => True
  | seen, nd :: rest =>
    (∃ p, nd.parent_node_id = some p ∧ ∃ q ∈ seen, q.id = p ∧ nd.depth = q.depth + 1) ∧
    parentLinkedEarlier (nd :: seen) rest

/-- The fields a detail node copies from its originating content segment. -/
structure DetailSource where
  content : String
  summary : String
  timestamp_start : ℚ
  timestamp_end : ℚ
  keywords : List String
  confidence : Option ℚ
  importance : Option ℚ
  word_count : Option Nat
deriving DecidableEq, Repr

/-- The segment-copied fields of a node. -/
def detailSrc (nd : MindMapNodeData) : DetailSource :=
  ⟨nd.content, nd.summary, nd.timestamp_start, nd.timestamp_end, nd.keywords,
   nd.confidence, nd.importance, nd.word_count⟩

/-- The fields a content segment contributes to a detail node. -/
def segSrc (s : ContentSegment) : DetailSource :=
  ⟨s.content, s.summary, s.timestamp_start, s.timestamp_end, s.keywords,
   some s.confidence, some s.importance, some s.word_count⟩

/-- The spec's description of the confidence aggregator, written from the
spec text: mean of all non-null confidence values across every node, 0.7
when no node has one. -/
def meanNonNullConfidence (nodes : List MindMapNodeData) : ℚ :=
  let confidences := nodes.filterMap (fun nd => nd.confidence)
  if confidences = [] then 7/10
  else confidences.sum / (confidences.length : ℚ)

/-- The spec's importance formula, written from the spec text with the cap
at 1 (the clamp below at 0 claimed by the spec is absent in the source). -/
def importanceFormulaSpec (wordCount : Nat) (confidence duration : ℚ) : ℚ :=
  min (min ((wordCount : ℚ) / 100) 1 * (3/10) + confidence * (4/10) +
    min (duration / 60) 1 * (3/10)) 1

/-- The per-segment confidence value actually used when content segments
are built: 0.8 when the source segment supplies none or supplies 0.0 (both
falsy in the source's truthiness fallback), the supplied value otherwise. -/
def confidenceUsedSpec (c : Option ℚ) : ℚ :=
  match c with
  | none => 8/10
  | some v => if v = 0 then 8/10 else v

/-- The state transform preprocessing applies to each segment of the
caller's list: retained segments get the cleaned text written into their
text field, dropped segments stay untouched. -/
def preprocessStateTransform (s : TranscriptSegment) : TranscriptSegment :=
  if 10 ≤ (pyStripS (cleanText s.text)).length then {s with text := cleanText s.text} else s

/-- Whether preprocessing retains a segment. -/
def keepSegment (s : TranscriptSegment) : Bool :=
  10 ≤ (pyStripS (cleanText s.text)).length

/-- Residual-match checker for the word-boundary alternation passes: scans
every position with the leading-boundary flag and reports whether any
alternative matches anywhere. -/
def hasAltMatch (alts : List (List Char)) : Bool → List Char → Bool
  | _, [] => false
  | prevWord, c :: cs =>
    (!prevWord && (tryMatchLen alts (c :: cs)).isSome) || hasAltMatch alts (isWordChar c) cs

/-- Residual-match checker for the span passes: reports whether some
opening character has a closing character after it. -/
def hasSpanMatch (op cl : Char) : List Char → Bool
  | [] => false
  | c :: cs => (c = op && (firstIdx cl cs).isSome) || hasSpanMatch op cl cs

/-- A cleaned text is a fixed point of the cleaner's substitution passes
exactly when it holds no residual filler-word, filler-phrase, bracketed or
parenthetical match. -/
def cleanResidualFree (s : String) : Bool :=
  !hasAltMatch wordFillers false s.data &&
  !hasAltMatch phraseFillers false s.data &&
  !hasSpanMatch '[' ']' s.data &&
  !hasSpanMatch '(' ')' s.data

/-- Checker: whitespace runs are single plain spaces (flag: previous
character was whitespace). -/
def collapsedB : Bool → List Char → Bool
  | _, [] => true
  | prev, c :: cs =>
    if isPySpace c then !prev && (c = ' ') && collapsedB true cs
    else collapsedB false cs

/-- Checker: the first character, if any, is not whitespace. -/
def headNotSpace : List Char → Bool
  | [] => true
  | c :: _ => !isPySpace c

/-- Checker: the last character, if any, is not whitespace. -/
def lastNotSpace : List Char → Bool
  | [] => true
  | [c] => !isPySpace c
  | _ :: c :: cs => lastNotSpace (c :: cs)

/-- A concrete injective id generator for closed instances: the id of
index n is the string of n repetitions of one letter. -/
def gWitness : Nat → String := fun n => String.mk (List.replicate n 'a')

/-- A concrete one-segment transcript whose segment survives preprocessing. -/
def tWitness : TranscriptResult :=
  ⟨"vid", [⟨0, 0, 30, "alpha beta gamma delta alpha", some (9/10), none⟩], some "en"⟩

/-- A concrete transcript whose only segment cleans to 3 characters. -/
def tShort : TranscriptResult :=
  ⟨"vid", [⟨0, 0, 5, "Hi.", none, none⟩], some "en"⟩

/-! ### Layout bridge: the layout engine only writes position fields -/

theorem noPos_setPosition (nodes : List MindMapNodeData) (i : Nat) (nd : MindMapNodeData) :
    noPos (setPosition nodes i nd) = noPos nd := rfl

theorem calcPositionsFrom_map_noPos (nodes : List MindMapNodeData) :
    ∀ (i : Nat) (l : List MindMapNodeData),
      (calcPositionsFrom nodes i l).map noPos = l.map noPos := by
  intro i l
  induction l generalizing i with
  | nil => rfl
  | cons nd rest ih => simp [calcPositionsFrom, noPos_setPosition, ih]

theorem calcPositionsFrom_length (nodes : List MindMapNodeData) :
    ∀ (i : Nat) (l : List MindMapNodeData), (calcPositionsFrom nodes i l).length = l.length := by
  intro i l
  induction l generalizing i with
  | nil => rfl
  | cons nd rest ih => simp [calcPositionsFrom, ih]

theorem noPos_mkDetailNode (genId : Nat → String) (vid topicId : String)
    (s : ContentSegment) (n : Nat) :
    noPos (mkDetailNode genId vid topicId s n) = mkDetailNode genId vid topicId s n := rfl

theorem mkDetails_map_noPos (genId : Nat → String) (vid topicId : String) :
    ∀ (n : Nat) (l : List ContentSegment),
      (mkDetails genId vid topicId n l).map noPos = mkDetails genId vid topicId n l := by
  intro n l
  induction l generalizing n with
  | nil => rfl
  | cons s rest ih => simp [mkDetails, noPos_mkDetailNode, ih]

/-! ### Characterization of the detail-node loop -/

theorem buildDetails_eq (genId : Nat → String) (vid : String) (thr : ℚ) (topicId : String) :
    ∀ (l : List ContentSegment) (n : Nat),
      buildDetails genId vid thr topicId l n =
        (mkDetails genId vid topicId n (l.filter (fun s => decide (thr < s.importance))),
         n + (l.filter (fun s => decide (thr < s.importance))).length) := by
  intro l
  induction l with
  | nil => intro n; simp [buildDetails, mkDetails]
  | cons s rest ih =>
    intro n
    by_cases h : thr < s.importance
    · simp [buildDetails, h, ih, mkDetails, Nat.add_assoc, Nat.add_comm 1]
    · simp [buildDetails, h, ih]

theorem mkDetails_length (genId : Nat → String) (vid topicId : String) :
    ∀ (n : Nat) (l : List ContentSegment),
      (mkDetails genId vid topicId n l).length = l.length := by
  intro n l
  induction l generalizing n with
  | nil => rfl
  | cons s rest ih => simp [mkDetails, ih]

theorem mkDetails_ids (genId : Nat → String) (vid topicId : String) :
    ∀ (n : Nat) (l : List ContentSegment),
      (mkDetails genId vid topicId n l).map (fun nd => nd.id) =
        (List.range' n l.length).map genId := by
  intro n l
  induction l generalizing n with
  | nil => rfl
  | cons s rest ih => simp [mkDetails, List.range'_succ, ih, mkDetailNode]

theorem mkDetails_mem (genId : Nat → String) (vid topicId : String) :
    ∀ (n : Nat) (l : List ContentSegment) (nd : MindMapNodeData),
      nd ∈ mkDetails genId vid topicId n l →
        ∃ s ∈ l, ∃ k, nd = mkDetailNode genId vid topicId s k := by
  intro n l
  induction l generalizing n with
  | nil => intro nd h; simp [mkDetails] at h
  | cons s rest ih =>
    intro nd h
    simp only [mkDetails, List.mem_cons] at h
    rcases h with h | h
    · exact ⟨s, by simp, n, h⟩
    · obtain ⟨s2, hs2, k, hk⟩ := ih (n + 1) nd h
      exact ⟨s2, by simp [hs2], k, hk⟩

theorem mkDetails_map_detailSrc (genId : Nat → String) (vid topicId : String) :
    ∀ (n : Nat) (l : List ContentSegment),
      (mkDetails genId vid topicId n l).map detailSrc = l.map segSrc := by
  intro n l
  induction l generalizing n with
  | nil => rfl
  | cons s rest ih => simp [mkDetails, ih]; rfl

/-! ### Characterization of the topic-block loop -/

theorem buildTopicBlocks_index (genId : Nat → String) (vid : String) (thr : ℚ)
    (segs : List ContentSegment) (rootId : String) :
    ∀ (hs : List TopicHierarchy) (n : Nat),
      (buildTopicBlocks genId vid thr segs rootId hs n).2.2 =
        n + (buildTopicBlocks genId vid thr segs rootId hs n).1.length := by
  intro hs
  induction hs with
  | nil => intro n; simp [buildTopicBlocks]
  | cons h hs ih =>
    intro n
    simp only [buildTopicBlocks, buildDetails_eq, ih, List.length_cons, List.length_append,
      mkDetails_length]
    omega

theorem buildTopicBlocks_ids (genId : Nat → String) (vid : String) (thr : ℚ)
    (segs : List ContentSegment) (rootId : String) :
    ∀ (hs : List TopicHierarchy) (n : Nat),
      (buildTopicBlocks genId vid thr segs rootId hs n).1.map (fun nd => nd.id) =
        (List.range' n (buildTopicBlocks genId vid thr segs rootId hs n).1.length).map genId := by
  intro hs
  induction hs with
  | nil => intro n; simp [buildTopicBlocks]
  | cons h hs ih =>
    intro n
    simp only [buildTopicBlocks, buildDetails_eq, List.map_cons, List.map_append,
      mkDetails_ids, ih, mkDetails_length, List.length_cons, List.length_append]
    generalize (List.filter (fun s => decide (thr < s.importance))
      (List.filter (fun s => h.segments.contains s.id) segs)).length = a
    generalize (buildTopicBlocks genId vid thr segs rootId hs (n + 1 + a)).1.length = b
    rw [List.range'_succ, List.map_cons]
    congr 1
    rw [← List.map_append]
    congr 1
    have hap := List.range'_append (n + 1) a b 1
    simp only [Nat.one_mul] at hap
    rw [hap]
    congr 1
    omega

/-! ### The scan relation: basic lemmas -/

theorem ple_mono : ∀ (l seen seen2 : List MindMapNodeData),
    (∀ q ∈ seen, q ∈ seen2) → parentLinkedEarlier seen l → parentLinkedEarlier seen2 l := by
  intro l
  induction l with
  | nil => intro seen seen2 hsub h; simp [parentLinkedEarlier]
  | cons nd rest ih =>
    intro seen seen2 hsub h
    simp only [parentLinkedEarlier] at h ⊢
    obtain ⟨⟨p, hp, q, hq, hqid, hdep⟩, hrest⟩ := h
    refine ⟨⟨p, hp, q, hsub q hq, hqid, hdep⟩, ih _ _ ?_ hrest⟩
    intro x hx
    rcases List.mem_cons.mp hx with h1 | h2
    · exact h1 ▸ List.mem_cons_self _ _
    · exact List.mem_cons_of_mem _ (hsub x h2)

theorem ple_append : ∀ (xs ys seen : List MindMapNodeData),
    parentLinkedEarlier seen xs → parentLinkedEarlier (xs.reverse ++ seen) ys →
    parentLinkedEarlier seen (xs ++ ys) := by
  intro xs
  induction xs with
  | nil => intro ys seen _ hy; simpa using hy
  | cons nd rest ih =>
    intro ys seen hx hy
    simp only [parentLinkedEarlier, List.cons_append] at hx ⊢
    refine ⟨hx.1, ih ys (nd :: seen) hx.2 ?_⟩
    apply ple_mono _ _ _ _ hy
    intro q hq
    simp only [List.reverse_cons, List.append_assoc, List.mem_append, List.mem_cons,
      List.mem_singleton] at hq ⊢
    tauto

theorem ple_parents_some : ∀ (l seen : List MindMapNodeData),
    parentLinkedEarlier seen l → ∀ nd ∈ l, ∃ p, nd.parent_node_id = some p := by
  intro l
  induction l with
  | nil => intro seen _ nd h; simp at h
  | cons x rest ih =>
    intro seen h nd hmem
    simp only [parentLinkedEarlier] at h
    rcases List.mem_cons.mp hmem with h1 | h2
    · obtain ⟨⟨p, hp, _⟩, _⟩ := h
      exact ⟨p, h1 ▸ hp⟩
    · exact ih _ h.2 nd h2

theorem ple_mkDetails (genId : Nat → String) (vid topicId : String) :
    ∀ (l : List ContentSegment) (n : Nat) (seen : List MindMapNodeData),
      (∃ q ∈ seen, q.id = topicId ∧ q.depth = 1) →
      parentLinkedEarlier seen (mkDetails genId vid topicId n l) := by
  intro l
  induction l with
  | nil => intro n seen _; simp [mkDetails, parentLinkedEarlier]
  | cons s rest ih =>
    intro n seen hq
    obtain ⟨q, hqmem, hqid, hqdep⟩ := hq
    simp only [mkDetails, parentLinkedEarlier]
    constructor
    · exact ⟨topicId, rfl, q, hqmem, hqid, by simp [mkDetailNode, hqdep]⟩
    · exact ih (n + 1) _ ⟨q, List.mem_cons_of_mem _ hqmem, hqid, hqdep⟩

theorem ple_buildTopicBlocks (genId : Nat → String) (vid : String) (thr : ℚ)
    (segs : List ContentSegment) (rootId : String) :
    ∀ (hs : List TopicHierarchy) (n : Nat) (seen : List MindMapNodeData),
      (∃ q ∈ seen, q.id = rootId ∧ q.depth = 0) →
      parentLinkedEarlier seen (buildTopicBlocks genId vid thr segs rootId hs n).1 := by
  intro hs
  induction hs with
  | nil => intro n seen _; simp [buildTopicBlocks, parentLinkedEarlier]
  | cons h hs ih =>
    intro n seen hq
    obtain ⟨q, hqmem, hqid, hqdep⟩ := hq
    simp only [buildTopicBlocks, buildDetails_eq, parentLinkedEarlier]
    constructor
    · exact ⟨rootId, rfl, q, hqmem, hqid, by simp [hqdep]⟩
    · apply ple_append
      · apply ple_mkDetails
        exact ⟨_, List.mem_cons_self _ _, rfl, rfl⟩
      · apply ih
        refine ⟨q, ?_, hqid, hqdep⟩
        exact List.mem_append_right _ (List.mem_cons_of_mem _ hqmem)

theorem mkDetails_children_flatten (genId : Nat → String) (vid topicId : String) :
    ∀ (n : Nat) (l : List ContentSegment),
      ((mkDetails genId vid topicId n l).map (fun nd => nd.children)).flatten = [] := by
  intro n l
  induction l generalizing n with
  | nil => rfl
  | cons s rest ih => simp [mkDetails, mkDetailNode, ih]

theorem mkDetails_node_type (genId : Nat → String) (vid topicId : String)
    (n : Nat) (l : List ContentSegment) :
    ∀ nd ∈ mkDetails genId vid topicId n l, nd.node_type = NodeType.detail := by
  intro nd hmem
  obtain ⟨s, _, k, hk⟩ := mkDetails_mem genId vid topicId n l nd hmem
  simp [hk, mkDetailNode]

theorem buildTopicBlocks_mem (genId : Nat → String) (vid : String) (thr : ℚ)
    (segs : List ContentSegment) (rootId : String) :
    ∀ (hs : List TopicHierarchy) (n : Nat) (nd : MindMapNodeData),
      nd ∈ (buildTopicBlocks genId vid thr segs rootId hs n).1 →
        (nd.node_type = NodeType.topic ∧ nd.depth = 1 ∧
          ∃ h ∈ hs, nd.confidence = some h.confidence ∧ nd.importance = some h.importance) ∨
        (nd.node_type = NodeType.detail ∧ nd.depth = 2 ∧
          ∃ s ∈ segs, nd.confidence = some s.confidence ∧ nd.importance = some s.importance) := by
  intro hs
  induction hs with
  | nil => intro n nd h; simp [buildTopicBlocks] at h
  | cons h hs ih =>
    intro n nd hmem
    simp only [buildTopicBlocks, buildDetails_eq, List.mem_cons, List.mem_append] at hmem
    rcases hmem with h1 | h2 | h3
    · subst h1
      exact Or.inl ⟨rfl, rfl, h, List.mem_cons_self _ _, rfl, rfl⟩
    · obtain ⟨s, hs2, k, hk⟩ := mkDetails_mem _ _ _ _ _ _ h2
      refine Or.inr ⟨by simp [hk, mkDetailNode], by simp [hk, mkDetailNode], s, ?_, ?_, ?_⟩
      · exact (List.mem_filter.mp (List.mem_filter.mp hs2).1).1
      · simp [hk, mkDetailNode]
      · simp [hk, mkDetailNode]
    · rcases ih _ nd h3 with ⟨ht, hd, hh, hhm, hc⟩ | hdet
      · exact Or.inl ⟨ht, hd, hh, List.mem_cons_of_mem _ hhm, hc⟩
      · exact Or.inr hdet

theorem buildTopicBlocks_perm (genId : Nat → String) (vid : String) (thr : ℚ)
    (segs : List ContentSegment) (rootId : String) :
    ∀ (hs : List TopicHierarchy) (n : Nat),
      ((buildTopicBlocks genId vid thr segs rootId hs n).2.1 ++
        (((buildTopicBlocks genId vid thr segs rootId hs n).1.map
          (fun nd => nd.children)).flatten)).Perm
        ((buildTopicBlocks genId vid thr segs rootId hs n).1.map (fun nd => nd.id)) := by
  intro hs
  induction hs with
  | nil => intro n; simp [buildTopicBlocks]
  | cons h hs ih =>
    intro n
    simp only [buildTopicBlocks, buildDetails_eq, List.map_cons, List.map_append,
      List.flatten_cons, List.flatten_append, mkDetails_children_flatten, List.nil_append,
      List.cons_append]
    apply List.Perm.cons
    have hassoc :
        (buildTopicBlocks genId vid thr segs rootId hs
            (n + 1 + ((segs.filter (fun s => h.segments.contains s.id)).filter
              (fun s => decide (thr < s.importance))).length)).2.1 ++
          ((mkDetails genId vid (genId n) (n + 1)
            ((segs.filter (fun s => h.segments.contains s.id)).filter
              (fun s => decide (thr < s.importance)))).map (fun nd => nd.id) ++
           ((buildTopicBlocks genId vid thr segs rootId hs
              (n + 1 + ((segs.filter (fun s => h.segments.contains s.id)).filter
                (fun s => decide (thr < s.importance))).length)).1.map
              (fun nd => nd.children)).flatten) =
        ((buildTopicBlocks genId vid thr segs rootId hs
            (n + 1 + ((segs.filter (fun s => h.segments.contains s.id)).filter
              (fun s => decide (thr < s.importance))).length)).2.1 ++
          (mkDetails genId vid (genId n) (n + 1)
            ((segs.filter (fun s => h.segments.contains s.id)).filter
              (fun s => decide (thr < s.importance)))).map (fun nd => nd.id)) ++
          ((buildTopicBlocks genId vid thr segs rootId hs
            (n + 1 + ((segs.filter (fun s => h.segments.contains s.id)).filter
              (fun s => decide (thr < s.importance))).length)).1.map
            (fun nd => nd.children)).flatten := by
      rw [List.append_assoc]
    rw [hassoc]
    refine List.Perm.trans (List.Perm.append_right _ List.perm_append_comm) ?_
    rw [List.append_assoc]
    exact List.Perm.append_left _ (ih _)

theorem buildTopicBlocks_detailParent (genId : Nat → String) (vid : String) (thr : ℚ)
    (segs : List ContentSegment) (rootId : String) :
    ∀ (hs : List TopicHierarchy) (n : Nat) (nd : MindMapNodeData),
      nd ∈ (buildTopicBlocks genId vid thr segs rootId hs n).1 →
      nd.node_type = NodeType.detail →
        ∃ tn ∈ (buildTopicBlocks genId vid thr segs rootId hs n).1,
          tn.node_type = NodeType.topic ∧ nd.parent_node_id = some tn.id ∧
          nd.id ∈ tn.children := by
  intro hs
  induction hs with
  | nil => intro n nd h; simp [buildTopicBlocks] at h
  | cons h hs ih =>
    intro n nd hmem hdet
    simp only [buildTopicBlocks, buildDetails_eq, List.mem_cons, List.mem_append] at hmem ⊢
    rcases hmem with h1 | h2 | h3
    · rw [h1] at hdet; simp at hdet
    · refine ⟨_, Or.inl rfl, rfl, ?_, ?_⟩
      · obtain ⟨s, _, k, hk⟩ := mkDetails_mem _ _ _ _ _ _ h2
        simp [hk, mkDetailNode]
      · exact List.mem_map_of_mem _ h2
    · obtain ⟨tn, htn, hty, hpar, hchild⟩ := ih _ nd h3 hdet
      exact ⟨tn, Or.inr (Or.inr htn), hty, hpar, hchild⟩

theorem buildTopicBlocks_filterDetail (genId : Nat → String) (vid : String) (thr : ℚ)
    (segs : List ContentSegment) (rootId : String) :
    ∀ (hs : List TopicHierarchy) (n : Nat),
      (((buildTopicBlocks genId vid thr segs rootId hs n).1.filter
        (fun nd => decide (nd.node_type = NodeType.detail))).map detailSrc) =
      ((hs.map (fun h => (segs.filter (fun s => h.segments.contains s.id)).filter
        (fun s => decide (thr < s.importance)))).flatten).map segSrc := by
  intro hs
  have hfd : ∀ (tid : String) (m : Nat) (l : List ContentSegment),
      (mkDetails genId vid tid m l).filter
        (fun nd => decide (nd.node_type = NodeType.detail)) = mkDetails genId vid tid m l :=
    fun tid m l => List.filter_eq_self.mpr (fun nd hnd => by
      simp [mkDetails_node_type genId vid tid m l nd hnd])
  induction hs with
  | nil => intro n; simp [buildTopicBlocks]
  | cons h hs ih =>
    intro n
    simp only [buildTopicBlocks, buildDetails_eq, List.map_cons, List.flatten_cons,
      List.filter_cons, List.map_append, List.filter_append]
    rw [hfd]
    simp only [decide_eq_true_eq, if_neg (by simp : ¬(NodeType.topic = NodeType.detail)),
      List.map_append, mkDetails_map_detailSrc, ih]

theorem buildTopicBlocks_map_noPos (genId : Nat → String) (vid : String) (thr : ℚ)
    (segs : List ContentSegment) (rootId : String) :
    ∀ (hs : List TopicHierarchy) (n : Nat),
      (buildTopicBlocks genId vid thr segs rootId hs n).1.map noPos =
        (buildTopicBlocks genId vid thr segs rootId hs n).1 := by
  intro hs
  induction hs with
  | nil => intro n; simp [buildTopicBlocks]
  | cons h hs ih =>
    intro n
    simp only [buildTopicBlocks, buildDetails_eq, List.map_cons, List.map_append,
      mkDetails_map_noPos, ih]
    rfl

theorem buildMindMapNodes_map_noPos (genId : Nat → String) (vid : String) (thr : ℚ)
    (segs : List ContentSegment) (hiers : List TopicHierarchy) :
    (buildMindMapNodes genId vid thr segs hiers).map noPos =
      buildMindMapNodes genId vid thr segs hiers := by
  simp only [buildMindMapNodes, List.map_cons, buildTopicBlocks_map_noPos]
  rfl

theorem analyzeTranscript_nodes_noPos (genId : Nat → String) (cfg : AnalysisConfig)
    (pt : ℚ) (t : TranscriptResult) :
    (analyzeTranscript genId cfg pt t).nodes.map noPos =
      buildMindMapNodes genId t.video_id cfg.importance_threshold
        (createContentSegments (preprocessSegments t.segments).processed)
        (extractTopicHierarchy (createContentSegments (preprocessSegments t.segments).processed)) := by
  simp only [analyzeTranscript, calculateNodePositions, calcPositionsFrom_map_noPos,
    buildMindMapNodes_map_noPos]

theorem analyzeTranscript_nodes_length (genId : Nat → String) (cfg : AnalysisConfig)
    (pt : ℚ) (t : TranscriptResult) :
    (analyzeTranscript genId cfg pt t).nodes.length =
      (buildMindMapNodes genId t.video_id cfg.importance_threshold
        (createContentSegments (preprocessSegments t.segments).processed)
        (extractTopicHierarchy
          (createContentSegments (preprocessSegments t.segments).processed))).length := by
  simp only [analyzeTranscript, calculateNodePositions, calcPositionsFrom_length]

theorem filterMap_conf_noPos (l : List MindMapNodeData) :
    (l.map noPos).filterMap (fun nd => nd.confidence) =
      l.filterMap (fun nd => nd.confidence) := by
  rw [List.filterMap_map]
  rfl

theorem map_id_noPos (l : List MindMapNodeData) :
    (l.map noPos).map (fun nd => nd.id) = l.map (fun nd => nd.id) := by
  rw [List.map_map]; rfl

theorem map_children_noPos (l : List MindMapNodeData) :
    (l.map noPos).map (fun nd => nd.children) = l.map (fun nd => nd.children) := by
  rw [List.map_map]; rfl

theorem ple_map_noPos : ∀ (l seen : List MindMapNodeData),
    parentLinkedEarlier (seen.map noPos) (l.map noPos) → parentLinkedEarlier seen l := by
  intro l
  induction l with
  | nil => intro seen _; simp [parentLinkedEarlier]
  | cons nd rest ih =>
    intro seen h
    simp only [List.map_cons, parentLinkedEarlier] at h ⊢
    obtain ⟨⟨p, hp, q, hq, hqid, hdep⟩, hrest⟩ := h
    obtain ⟨q0, hq0, hq0e⟩ := List.mem_map.mp hq
    refine ⟨⟨p, hp, q0, hq0, ?_, ?_⟩, ih (nd :: seen) hrest⟩
    · rw [← hqid, ← hq0e]; rfl
    · have h1 : (noPos nd).depth = nd.depth := rfl
      have h2 : (noPos q0).depth = q0.depth := rfl
      rw [h1] at hdep
      rw [← hq0e, h2] at hdep
      exact hdep

/-- Claim C1: every structure returned by analyze_transcript has exactly one
node with null parent (the root, listed first); every other node's parent id
is the id of a node created earlier in the nodes list, with depth one more
than its parent's (root 0, topic 1, detail 2); node ids are pairwise
distinct and each non-root node's id occurs exactly once across all
children lists, so the children lists form a tree. -/
theorem C1_tree_invariant (genId : Nat → String) (hinj : Function.Injective genId)
    (cfg : AnalysisConfig) (pt : ℚ) (t : TranscriptResult) :
    ∃ r rest, (analyzeTranscript genId cfg pt t).nodes = r :: rest ∧
      r.parent_node_id = none ∧ r.node_type = NodeType.root ∧ r.depth = 0 ∧
      (∀ nd ∈ rest, ∃ p, nd.parent_node_id = some p) ∧
      parentLinkedEarlier [r] rest ∧
      (∀ nd ∈ r :: rest,
        (nd.node_type = NodeType.root → nd.depth = 0) ∧
        (nd.node_type = NodeType.topic → nd.depth = 1) ∧
        (nd.node_type = NodeType.detail → nd.depth = 2)) ∧
      ((r :: rest).map (fun nd => nd.id)).Nodup ∧
      (∀ nd ∈ rest, (((r :: rest).map (fun nd => nd.children)).flatten).count nd.id = 1) := by
  have hb := analyzeTranscript_nodes_noPos genId cfg pt t
  set csegs := createContentSegments (preprocessSegments t.segments).processed with hcsegs
  set hiers := extractTopicHierarchy csegs with hhiers
  set B := buildTopicBlocks genId t.video_id cfg.importance_threshold csegs (genId 0) hiers 1
    with hB
  have hbuild : buildMindMapNodes genId t.video_id cfg.importance_threshold csegs hiers =
      mkRootNode genId t.video_id csegs hiers B.2.1 :: B.1 := rfl
  rw [hbuild] at hb
  cases hN : (analyzeTranscript genId cfg pt t).nodes with
  | nil => rw [hN] at hb; simp at hb
  | cons r rest =>
    rw [hN] at hb
    simp only [List.map_cons, List.cons.injEq] at hb
    obtain ⟨hr, hrest⟩ := hb
    refine ⟨r, rest, rfl, ?_, ?_, ?_, ?_, ?_, ?_, ?_, ?_⟩
    · have : (noPos r).parent_node_id = none := by rw [hr]; rfl
      exact this
    · have : (noPos r).node_type = NodeType.root := by rw [hr]; rfl
      exact this
    · have : (noPos r).depth = 0 := by rw [hr]; rfl
      exact this
    · intro nd hnd
      have hple : parentLinkedEarlier [mkRootNode genId t.video_id csegs hiers B.2.1] B.1 :=
        ple_buildTopicBlocks genId t.video_id cfg.importance_threshold csegs (genId 0)
          hiers 1 _ ⟨_, List.mem_cons_self _ _, rfl, rfl⟩
      have hmem : noPos nd ∈ B.1 := by
        rw [← hrest]; exact List.mem_map_of_mem _ hnd
      obtain ⟨p, hp⟩ := ple_parents_some _ _ hple _ hmem
      exact ⟨p, hp⟩
    · apply ple_map_noPos
      have hseen : ([r].map noPos) = [mkRootNode genId t.video_id csegs hiers B.2.1] := by
        simp [hr]
      rw [hseen, hrest]
      exact ple_buildTopicBlocks genId t.video_id cfg.importance_threshold csegs (genId 0)
        hiers 1 _ ⟨_, List.mem_cons_self _ _, rfl, rfl⟩
    · intro nd hnd
      rcases List.mem_cons.mp hnd with h1 | h2
      · subst h1
        have ht : (noPos nd).node_type = NodeType.root := by rw [hr]; rfl
        have hd : (noPos nd).depth = 0 := by rw [hr]; rfl
        refine ⟨fun _ => hd, fun hc => ?_, fun hc => ?_⟩
        · rw [show nd.node_type = (noPos nd).node_type from rfl, ht] at hc; cases hc
        · rw [show nd.node_type = (noPos nd).node_type from rfl, ht] at hc; cases hc
      · have hmem : noPos nd ∈ B.1 := by
          rw [← hrest]; exact List.mem_map_of_mem _ h2
        rcases buildTopicBlocks_mem genId t.video_id cfg.importance_threshold csegs (genId 0)
            hiers 1 (noPos nd) hmem with ⟨ht, hd, _⟩ | ⟨ht, hd, _⟩
        · refine ⟨fun hc => ?_, fun _ => hd, fun hc => ?_⟩
          · rw [show nd.node_type = (noPos nd).node_type from rfl, ht] at hc; cases hc
          · rw [show nd.node_type = (noPos nd).node_type from rfl, ht] at hc; cases hc
        · refine ⟨fun hc => ?_, fun hc => ?_, fun _ => hd⟩
          · rw [show nd.node_type = (noPos nd).node_type from rfl, ht] at hc; cases hc
          · rw [show nd.node_type = (noPos nd).node_type from rfl, ht] at hc; cases hc
    · have hids : (r :: rest).map (fun nd => nd.id) =
          (List.range' 0 (B.1.length + 1)).map genId := by
        have h0 : ((r :: rest).map noPos).map (fun nd => nd.id) =
            (r :: rest).map (fun nd => nd.id) := map_id_noPos _
        rw [← h0]
        have h1 : (r :: rest).map noPos =
            mkRootNode genId t.video_id csegs hiers B.2.1 :: B.1 := by
          simp [hr, hrest]
        rw [h1, List.map_cons]
        rw [buildTopicBlocks_ids]
        rw [List.range'_succ]
        rfl
      rw [hids]
      exact (List.nodup_range' 0 (B.1.length + 1)).map hinj
    · intro nd hnd
      have hch : (r :: rest).map (fun nd => nd.children) =
          B.2.1 :: B.1.map (fun nd => nd.children) := by
        have h0 : ((r :: rest).map noPos).map (fun nd => nd.children) =
            (r :: rest).map (fun nd => nd.children) := map_children_noPos _
        rw [← h0]
        have h1 : (r :: rest).map noPos =
            mkRootNode genId t.video_id csegs hiers B.2.1 :: B.1 := by
          simp [hr, hrest]
        rw [h1, List.map_cons]
        rfl
      rw [hch]
      have hflat : (B.2.1 :: B.1.map (fun nd => nd.children)).flatten =
          B.2.1 ++ (B.1.map (fun nd => nd.children)).flatten := rfl
      rw [hflat]
      have hperm := buildTopicBlocks_perm genId t.video_id cfg.importance_threshold csegs
        (genId 0) hiers 1
      rw [hperm.count_eq nd.id]
      have hop : nd.id ∈ B.1.map (fun nd => nd.id) := by
        have hmem : noPos nd ∈ B.1 := by
          rw [← hrest]; exact List.mem_map_of_mem _ hnd
        have : (noPos nd).id ∈ B.1.map (fun nd => nd.id) := List.mem_map_of_mem _ hmem
        exact this
      have hnd2 : (B.1.map (fun nd => nd.id)).Nodup := by
        rw [buildTopicBlocks_ids]
        exact (List.nodup_range' 1 B.1.length).map hinj
      exact List.count_eq_one_of_mem hnd2 hop

theorem gWitness_injective : Function.Injective gWitness := by
  intro a b h
  have h2 : (gWitness a).data.length = (gWitness b).data.length := by rw [h]
  simpa [gWitness] using h2

/-- Witness for claim C1 at a concrete generator and transcript. -/
theorem C1_tree_invariant_witness :
    Function.Injective gWitness ∧
    (∃ r rest, (analyzeTranscript gWitness defaultConfig 0 tWitness).nodes = r :: rest ∧
      r.parent_node_id = none ∧ r.node_type = NodeType.root ∧ r.depth = 0 ∧
      (∀ nd ∈ rest, ∃ p, nd.parent_node_id = some p) ∧
      parentLinkedEarlier [r] rest ∧
      (∀ nd ∈ r :: rest,
        (nd.node_type = NodeType.root → nd.depth = 0) ∧
        (nd.node_type = NodeType.topic → nd.depth = 1) ∧
        (nd.node_type = NodeType.detail → nd.depth = 2)) ∧
      ((r :: rest).map (fun nd => nd.id)).Nodup ∧
      (∀ nd ∈ rest, (((r :: rest).map (fun nd => nd.children)).flatten).count nd.id = 1)) :=
  ⟨gWitness_injective, C1_tree_invariant gWitness gWitness_injective defaultConfig 0 tWitness⟩

theorem filterMap_conf_all_some : ∀ (l : List MindMapNodeData),
    (∀ nd ∈ l, nd.confidence ≠ none) →
    l.filterMap (fun nd => nd.confidence) = l.map (fun nd => nd.confidence.getD 0) := by
  intro l
  induction l with
  | nil => intro _; rfl
  | cons nd rest ih =>
    intro h
    have h1 : nd.confidence ≠ none := h nd (List.mem_cons_self _ _)
    obtain ⟨v, hv⟩ := Option.ne_none_iff_exists.mp h1
    simp only [List.filterMap_cons, List.map_cons, ← hv, Option.getD_some]
    rw [ih (fun x hx => h x (List.mem_cons_of_mem _ hx))]

/-- Claim C10: every node built by the tree builder carries non-null
confidence and importance (the root fixed at confidence 0.9, importance 1),
the node list is non-empty with the root first, and therefore the
aggregated confidence score of analyze_transcript is the mean over all
nodes' confidences (the 0.7 fallback branch of the aggregator is never
taken). -/
theorem C10_all_nodes_confident (genId : Nat → String) (cfg : AnalysisConfig)
    (pt : ℚ) (t : TranscriptResult) :
    ∃ r rest, (analyzeTranscript genId cfg pt t).nodes = r :: rest ∧
      r.node_type = NodeType.root ∧ r.confidence = some (9/10) ∧ r.importance = some 1 ∧
      (∀ nd ∈ r :: rest, nd.confidence ≠ none ∧ nd.importance ≠ none) ∧
      (analyzeTranscript genId cfg pt t).confidence_score =
        ((r :: rest).map (fun nd => nd.confidence.getD 0)).sum / ((r :: rest).length : ℚ) := by
  have hb := analyzeTranscript_nodes_noPos genId cfg pt t
  set csegs := createContentSegments (preprocessSegments t.segments).processed with hcsegs
  set hiers := extractTopicHierarchy csegs with hhiers
  set B := buildTopicBlocks genId t.video_id cfg.importance_threshold csegs (genId 0) hiers 1
    with hB
  have hbuild : buildMindMapNodes genId t.video_id cfg.importance_threshold csegs hiers =
      mkRootNode genId t.video_id csegs hiers B.2.1 :: B.1 := rfl
  rw [hbuild] at hb
  cases hN : (analyzeTranscript genId cfg pt t).nodes with
  | nil => rw [hN] at hb; simp at hb
  | cons r rest =>
    rw [hN] at hb
    simp only [List.map_cons, List.cons.injEq] at hb
    obtain ⟨hr, hrest⟩ := hb
    have hallsome : ∀ nd ∈ r :: rest, nd.confidence ≠ none ∧ nd.importance ≠ none := by
      intro nd hnd
      rcases List.mem_cons.mp hnd with h1 | h2
      · subst h1
        constructor
        · have hc : (noPos nd).confidence = some (9/10) := by rw [hr]; rfl
          rw [show nd.confidence = (noPos nd).confidence from rfl, hc]; simp
        · have hc : (noPos nd).importance = some 1 := by rw [hr]; rfl
          rw [show nd.importance = (noPos nd).importance from rfl, hc]; simp
      · have hmem : noPos nd ∈ B.1 := by
          rw [← hrest]; exact List.mem_map_of_mem _ h2
        rcases buildTopicBlocks_mem genId t.video_id cfg.importance_threshold csegs (genId 0)
            hiers 1 (noPos nd) hmem with ⟨_, _, h0, _, hc, hi⟩ | ⟨_, _, h0, _, hc, hi⟩
        all_goals
          constructor
        · rw [show nd.confidence = (noPos nd).confidence from rfl, hc]; simp
        · rw [show nd.importance = (noPos nd).importance from rfl, hi]; simp
        · rw [show nd.confidence = (noPos nd).confidence from rfl, hc]; simp
        · rw [show nd.importance = (noPos nd).importance from rfl, hi]; simp
    refine ⟨r, rest, rfl, ?_, ?_, ?_, hallsome, ?_⟩
    · have ht : (noPos r).node_type = NodeType.root := by rw [hr]; rfl
      exact ht
    · have hc : (noPos r).confidence = some (9/10) := by rw [hr]; rfl
      exact hc
    · have hi : (noPos r).importance = some 1 := by rw [hr]; rfl
      exact hi
    · have hscore : (analyzeTranscript genId cfg pt t).confidence_score =
          calculateOverallConfidence (analyzeTranscript genId cfg pt t).nodes := rfl
      rw [hscore, hN, calculateOverallConfidence]
      rw [filterMap_conf_all_some _ (fun nd h => (hallsome nd h).1)]
      simp

/-- Claim C3: a detail node is created for a (topic, segment) association
exactly when the segment's importance strictly exceeds the configured
importance threshold: the detail nodes of the returned structure, read
through their segment-copied fields, are precisely the join over retained
topics of that topic's associated segments filtered by the strict
threshold, in the segments' original order; and every detail node hangs
under a topic node that lists it among its children. -/
theorem C3_importance_filter (genId : Nat → String) (cfg : AnalysisConfig) (pt : ℚ)
    (t : TranscriptResult) :
    (((analyzeTranscript genId cfg pt t).nodes.filter
        (fun nd => decide (nd.node_type = NodeType.detail))).map detailSrc) =
      (((extractTopicHierarchy
          (createContentSegments (preprocessSegments t.segments).processed)).map
        (fun h => ((createContentSegments (preprocessSegments t.segments).processed).filter
          (fun s => h.segments.contains s.id)).filter
            (fun s => decide (cfg.importance_threshold < s.importance)))).flatten).map segSrc ∧
    (∀ nd ∈ (analyzeTranscript genId cfg pt t).nodes, nd.node_type = NodeType.detail →
      ∃ tn ∈ (analyzeTranscript genId cfg pt t).nodes, tn.node_type = NodeType.topic ∧
        nd.parent_node_id = some tn.id ∧ nd.id ∈ tn.children) := by
  have hb := analyzeTranscript_nodes_noPos genId cfg pt t
  set csegs := createContentSegments (preprocessSegments t.segments).processed with hcsegs
  set hiers := extractTopicHierarchy csegs with hhiers
  set B := buildTopicBlocks genId t.video_id cfg.importance_threshold csegs (genId 0) hiers 1
    with hB
  have hbuild : buildMindMapNodes genId t.video_id cfg.importance_threshold csegs hiers =
      mkRootNode genId t.video_id csegs hiers B.2.1 :: B.1 := rfl
  rw [hbuild] at hb
  constructor
  · have hcomp : detailSrc ∘ noPos = detailSrc := funext fun nd => rfl
    have hpred : (fun nd => decide (nd.node_type = NodeType.detail)) ∘ noPos =
        (fun nd => decide (nd.node_type = NodeType.detail)) := funext fun nd => rfl
    calc ((analyzeTranscript genId cfg pt t).nodes.filter
            (fun nd => decide (nd.node_type = NodeType.detail))).map detailSrc
        = ((analyzeTranscript genId cfg pt t).nodes.filter
            (fun nd => decide (nd.node_type = NodeType.detail))).map (detailSrc ∘ noPos) := by
          rw [hcomp]
      _ = (((analyzeTranscript genId cfg pt t).nodes.filter
            (fun nd => decide (nd.node_type = NodeType.detail))).map noPos).map detailSrc := by
          rw [List.map_map]
      _ = (((analyzeTranscript genId cfg pt t).nodes.map noPos).filter
            (fun nd => decide (nd.node_type = NodeType.detail))).map detailSrc := by
          rw [List.filter_map, hpred]
      _ = ((mkRootNode genId t.video_id csegs hiers B.2.1 :: B.1).filter
            (fun nd => decide (nd.node_type = NodeType.detail))).map detailSrc := by
          rw [hb]
      _ = (B.1.filter (fun nd => decide (nd.node_type = NodeType.detail))).map detailSrc := by
          rw [List.filter_cons]
          simp [mkRootNode]
      _ = ((hiers.map (fun h => (csegs.filter (fun s => h.segments.contains s.id)).filter
            (fun s => decide (cfg.importance_threshold < s.importance)))).flatten).map segSrc :=
          buildTopicBlocks_filterDetail genId t.video_id cfg.importance_threshold csegs
            (genId 0) hiers 1
  · intro nd hnd hdet
    have hmem : noPos nd ∈ mkRootNode genId t.video_id csegs hiers B.2.1 :: B.1 := by
      rw [← hb]; exact List.mem_map_of_mem _ hnd
    rcases List.mem_cons.mp hmem with h1 | h2
    · exfalso
      have : (noPos nd).node_type = NodeType.root := by rw [h1]; rfl
      rw [show nd.node_type = (noPos nd).node_type from rfl, this] at hdet
      cases hdet
    · have hdet2 : (noPos nd).node_type = NodeType.detail := hdet
      obtain ⟨tn2, htn2, hty2, hpar2, hchild2⟩ :=
        buildTopicBlocks_detailParent genId t.video_id cfg.importance_threshold csegs
          (genId 0) hiers 1 (noPos nd) h2 hdet2
      have htn2' : tn2 ∈ (analyzeTranscript genId cfg pt t).nodes.map noPos := by
        rw [hb]; exact List.mem_cons_of_mem _ htn2
      obtain ⟨tn, htn, htne⟩ := List.mem_map.mp htn2'
      refine ⟨tn, htn, ?_, ?_, ?_⟩
      · rw [show tn.node_type = (noPos tn).node_type from rfl, htne]; exact hty2
      · rw [show nd.parent_node_id = (noPos nd).parent_node_id from rfl, hpar2, ← htne]; rfl
      · rw [show nd.id = (noPos nd).id from rfl,
          show tn.children = (noPos tn).children from rfl, htne]
        exact hchild2

/-- Claim C2: when preprocessing leaves zero segments, analyze_transcript
returns a structure with exactly one node, the root, no topic or detail
nodes, and metadata reporting 0 segments, 0 topics, 1 node, max depth 0. -/
theorem C2_degenerate (genId : Nat → String) (cfg : AnalysisConfig) (pt : ℚ)
    (t : TranscriptResult) (h : (preprocessSegments t.segments).processed = []) :
    (analyzeTranscript genId cfg pt t).nodes.length = 1 ∧
    ((analyzeTranscript genId cfg pt t).nodes.countP
      (fun nd => decide (nd.node_type = NodeType.topic))) = 0 ∧
    ((analyzeTranscript genId cfg pt t).nodes.countP
      (fun nd => decide (nd.node_type = NodeType.detail))) = 0 ∧
    (∀ nd ∈ (analyzeTranscript genId cfg pt t).nodes, nd.node_type = NodeType.root) ∧
    (analyzeTranscript genId cfg pt t).analysis_metadata.segments_count = 0 ∧
    (analyzeTranscript genId cfg pt t).analysis_metadata.topics_count = 0 ∧
    (analyzeTranscript genId cfg pt t).analysis_metadata.nodes_count = 1 ∧
    (analyzeTranscript genId cfg pt t).analysis_metadata.max_depth = 0 := by
  simp only [analyzeTranscript, h]
  simp [createContentSegments, createContentSegmentsFrom, extractTopicHierarchy,
    rankByCount, dedupFirst, dedupFirstAux, mostCommon, buildMindMapNodes, buildTopicBlocks,
    calculateNodePositions, calcPositionsFrom, setPosition, mkRootNode, natListMaxD,
    List.countP_cons]

/-- Witness for claim C2: a transcript whose only segment text cleans to 3
characters is dropped, and the analysis yields the degenerate structure. -/
theorem C2_degenerate_witness :
    (preprocessSegments tShort.segments).processed = [] ∧
    ((analyzeTranscript gWitness defaultConfig 0 tShort).nodes.length = 1 ∧
    ((analyzeTranscript gWitness defaultConfig 0 tShort).nodes.countP
      (fun nd => decide (nd.node_type = NodeType.topic))) = 0 ∧
    ((analyzeTranscript gWitness defaultConfig 0 tShort).nodes.countP
      (fun nd => decide (nd.node_type = NodeType.detail))) = 0 ∧
    (∀ nd ∈ (analyzeTranscript gWitness defaultConfig 0 tShort).nodes,
      nd.node_type = NodeType.root) ∧
    (analyzeTranscript gWitness defaultConfig 0 tShort).analysis_metadata.segments_count = 0 ∧
    (analyzeTranscript gWitness defaultConfig 0 tShort).analysis_metadata.topics_count = 0 ∧
    (analyzeTranscript gWitness defaultConfig 0 tShort).analysis_metadata.nodes_count = 1 ∧
    (analyzeTranscript gWitness defaultConfig 0 tShort).analysis_metadata.max_depth = 0) :=
  ⟨by decide, C2_degenerate gWitness defaultConfig 0 tShort (by decide)⟩

theorem calcOverall_eq_mean (l : List MindMapNodeData) :
    calculateOverallConfidence l = meanNonNullConfidence l := by
  simp only [calculateOverallConfidence, meanNonNullConfidence, List.isEmpty_iff]

theorem list_sum_le_length (l : List ℚ) (h : ∀ x ∈ l, x ≤ 1) : l.sum ≤ (l.length : ℚ) := by
  induction l with
  | nil => simp
  | cons x rest ih =>
    simp only [List.sum_cons, List.length_cons, Nat.cast_succ]
    have h1 : x ≤ 1 := h x (List.mem_cons_self _ _)
    have h2 : rest.sum ≤ (rest.length : ℚ) := ih (fun y hy => h y (List.mem_cons_of_mem _ hy))
    linarith

theorem extractTopicHierarchy_conf_bounds (segs : List ContentSegment) :
    ∀ h ∈ extractTopicHierarchy segs, 0 ≤ h.confidence ∧ h.confidence ≤ 1 := by
  intro h hmem
  simp only [extractTopicHierarchy, List.mem_map] at hmem
  obtain ⟨p, _, hpe⟩ := hmem
  constructor
  · rw [← hpe]
    exact le_min (div_nonneg (Nat.cast_nonneg _) (Nat.cast_nonneg _)) zero_le_one
  · rw [← hpe]
    exact min_le_right _ _

theorem preprocess_conf_preserved : ∀ (l : List TranscriptSegment),
    ∀ s2 ∈ (preprocessSegments l).processed, ∃ s ∈ l, s2.confidence = s.confidence := by
  intro l
  induction l with
  | nil => intro s2 h; simp [preprocessSegments] at h
  | cons s rest ih =>
    intro s2 hmem
    simp only [preprocessSegments] at hmem
    by_cases hc : (pyStripS (cleanText s.text)).length < 10
    · rw [if_pos hc] at hmem
      obtain ⟨s0, hs0, he⟩ := ih s2 hmem
      exact ⟨s0, List.mem_cons_of_mem _ hs0, he⟩
    · rw [if_neg hc] at hmem
      rcases List.mem_cons.mp hmem with h1 | h2
      · exact ⟨s, List.mem_cons_self _ _, by rw [h1]⟩
      · obtain ⟨s0, hs0, he⟩ := ih s2 h2
        exact ⟨s0, List.mem_cons_of_mem _ hs0, he⟩

theorem createContentSegments_conf : ∀ (l : List TranscriptSegment) (i : Nat),
    ∀ c ∈ createContentSegmentsFrom i l, ∃ s ∈ l, c.confidence = pyOrConf s.confidence := by
  intro l
  induction l with
  | nil => intro i c h; simp [createContentSegmentsFrom] at h
  | cons s rest ih =>
    intro i c hmem
    rcases List.mem_cons.mp hmem with h1 | h2
    · exact ⟨s, List.mem_cons_self _ _, by rw [h1]; rfl⟩
    · obtain ⟨s0, hs0, he⟩ := ih (i + 1) c h2
      exact ⟨s0, List.mem_cons_of_mem _ hs0, he⟩

theorem pyOrConf_bounds (c : Option ℚ) (h : ∀ v, c = some v → 0 ≤ v ∧ v ≤ 1) :
    0 ≤ pyOrConf c ∧ pyOrConf c ≤ 1 := by
  cases c with
  | none => norm_num [pyOrConf]
  | some v =>
    by_cases hv : v = 0
    · simp only [pyOrConf, if_pos hv]; norm_num
    · simp only [pyOrConf, if_neg hv]
      exact h v rfl

/-- Claim C8: the structure's confidence score is the mean of all non-null
node confidences with fallback 0.7 when none exists; and when every input
segment confidence lies in the unit interval, the aggregate score lies in
the unit interval. -/
theorem C8_confidence_mean_and_range (genId : Nat → String) (cfg : AnalysisConfig) (pt : ℚ)
    (t : TranscriptResult)
    (hconf : ∀ s ∈ t.segments, ∀ v, s.confidence = some v → 0 ≤ v ∧ v ≤ 1) :
    (analyzeTranscript genId cfg pt t).confidence_score =
      meanNonNullConfidence (analyzeTranscript genId cfg pt t).nodes ∧
    0 ≤ (analyzeTranscript genId cfg pt t).confidence_score ∧
    (analyzeTranscript genId cfg pt t).confidence_score ≤ 1 := by
  have hb := analyzeTranscript_nodes_noPos genId cfg pt t
  set csegs := createContentSegments (preprocessSegments t.segments).processed with hcsegs
  set hiers := extractTopicHierarchy csegs with hhiers
  set B := buildTopicBlocks genId t.video_id cfg.importance_threshold csegs (genId 0) hiers 1
    with hB
  have hbuild : buildMindMapNodes genId t.video_id cfg.importance_threshold csegs hiers =
      mkRootNode genId t.video_id csegs hiers B.2.1 :: B.1 := rfl
  rw [hbuild] at hb
  have hsegb : ∀ c ∈ csegs, 0 ≤ c.confidence ∧ c.confidence ≤ 1 := by
    intro c hc
    obtain ⟨s2, hs2, he⟩ := createContentSegments_conf _ 0 c hc
    obtain ⟨s, hs, he2⟩ := preprocess_conf_preserved t.segments s2 hs2
    rw [he, he2]
    exact pyOrConf_bounds _ (hconf s hs)
  have hbound : ∀ x ∈ (analyzeTranscript genId cfg pt t).nodes.filterMap
      (fun nd => nd.confidence), 0 ≤ x ∧ x ≤ 1 := by
    intro x hx
    obtain ⟨nd, hnd, hv⟩ := List.mem_filterMap.mp hx
    have hmem : noPos nd ∈ mkRootNode genId t.video_id csegs hiers B.2.1 :: B.1 := by
      rw [← hb]; exact List.mem_map_of_mem _ hnd
    rcases List.mem_cons.mp hmem with h1 | h2
    · have hc : (noPos nd).confidence = some (9/10) := by rw [h1]; rfl
      rw [show nd.confidence = (noPos nd).confidence from rfl, hc] at hv
      cases hv
      norm_num
    · rcases buildTopicBlocks_mem genId t.video_id cfg.importance_threshold csegs (genId 0)
          hiers 1 (noPos nd) h2 with ⟨_, _, hh, hhm, hc, _⟩ | ⟨_, _, s, hsm, hc, _⟩
      · rw [show nd.confidence = (noPos nd).confidence from rfl, hc] at hv
        cases hv
        exact extractTopicHierarchy_conf_bounds csegs hh hhm
      · rw [show nd.confidence = (noPos nd).confidence from rfl, hc] at hv
        cases hv
        exact hsegb s hsm
  have hscore : (analyzeTranscript genId cfg pt t).confidence_score =
      calculateOverallConfidence (analyzeTranscript genId cfg pt t).nodes := rfl
  have hrange : 0 ≤ calculateOverallConfidence (analyzeTranscript genId cfg pt t).nodes ∧
      calculateOverallConfidence (analyzeTranscript genId cfg pt t).nodes ≤ 1 := by
    simp only [calculateOverallConfidence]
    by_cases hemp : ((analyzeTranscript genId cfg pt t).nodes.filterMap
        (fun nd => nd.confidence)).isEmpty
    · rw [if_pos hemp]; norm_num
    · rw [if_neg hemp]
      have hne : (analyzeTranscript genId cfg pt t).nodes.filterMap
          (fun nd => nd.confidence) ≠ [] := by
        simpa [List.isEmpty_iff] using hemp
      have hlenpos : (0 : ℚ) < (((analyzeTranscript genId cfg pt t).nodes.filterMap
          (fun nd => nd.confidence)).length : ℚ) := by
        have hp := List.length_pos.mpr hne
        exact_mod_cast hp
      constructor
      · exact div_nonneg (List.sum_nonneg (fun x hx => (hbound x hx).1)) (le_of_lt hlenpos)
      · rw [div_le_one hlenpos]
        exact list_sum_le_length _ (fun x hx => (hbound x hx).2)
  exact ⟨by rw [hscore, calcOverall_eq_mean], hscore ▸ hrange.1, hscore ▸ hrange.2⟩

/-- Witness for claim C8 at a concrete transcript with one segment of
confidence 0.9. -/
theorem C8_confidence_witness :
    (∀ s ∈ tWitness.segments, ∀ v, s.confidence = some v → 0 ≤ v ∧ v ≤ 1) ∧
    ((analyzeTranscript gWitness defaultConfig 0 tWitness).confidence_score =
      meanNonNullConfidence (analyzeTranscript gWitness defaultConfig 0 tWitness).nodes ∧
    0 ≤ (analyzeTranscript gWitness defaultConfig 0 tWitness).confidence_score ∧
    (analyzeTranscript gWitness defaultConfig 0 tWitness).confidence_score ≤ 1) := by
  have hc : ∀ s ∈ tWitness.segments, ∀ v, s.confidence = some v → 0 ≤ v ∧ v ≤ 1 := by
    intro s hs v hv
    simp only [tWitness, List.mem_singleton] at hs
    rw [hs] at hv
    simp only [Option.some.injEq] at hv
    rw [← hv]
    norm_num
  exact ⟨hc, C8_confidence_mean_and_range gWitness defaultConfig 0 tWitness hc⟩

theorem pyMaxByFst_spec : ∀ (l : List (ℚ × String)) (b : ℚ × String),
    (pyMaxByFst b l = b ∧ ∀ x ∈ l, x.1 ≤ b.1) ∨
    (∃ i, ∃ hi : i < l.length, pyMaxByFst b l = l.get ⟨i, hi⟩ ∧ b.1 < (l.get ⟨i, hi⟩).1 ∧
      (∀ j, ∀ hj : j < l.length, j < i → (l.get ⟨j, hj⟩).1 < (l.get ⟨i, hi⟩).1) ∧
      (∀ j, ∀ hj : j < l.length, (l.get ⟨j, hj⟩).1 ≤ (l.get ⟨i, hi⟩).1)) := by
  intro l
  induction l with
  | nil => intro b; left; exact ⟨rfl, by simp⟩
  | cons x rest ih =>
    intro b
    by_cases hbx : b.1 < x.1
    · have heq : pyMaxByFst b (x :: rest) = pyMaxByFst x rest := by
        simp [pyMaxByFst, if_pos hbx]
      rcases ih x with ⟨hr, hall⟩ | ⟨i, hi, hr, hlt, hfirst, hmax⟩
      · right
        refine ⟨0, by simp, ?_, hbx, ?_, ?_⟩
        · rw [heq, hr]
          rfl
        · intro j hj hj0; omega
        · intro j hj
          match j, hj with
          | 0, _ => exact le_refl _
          | j + 1, hj => exact hall _ (List.get_mem rest j (by simpa using hj))
      · right
        refine ⟨i + 1, by simpa using hi, ?_, lt_trans hbx hlt, ?_, ?_⟩
        · rw [heq, hr]
          rfl
        · intro j hj hji
          match j, hj, hji with
          | 0, _, _ => exact hlt
          | j + 1, hj, hji => exact hfirst j (by simpa using hj) (by omega)
        · intro j hj
          match j, hj with
          | 0, _ => exact le_of_lt hlt
          | j + 1, hj => exact hmax j (by simpa using hj)
    · have heq : pyMaxByFst b (x :: rest) = pyMaxByFst b rest := by
        simp [pyMaxByFst, if_neg hbx]
      push_neg at hbx
      rcases ih b with ⟨hr, hall⟩ | ⟨i, hi, hr, hlt, hfirst, hmax⟩
      · left
        refine ⟨by rw [heq, hr], ?_⟩
        intro y hy
        rcases List.mem_cons.mp hy with h1 | h2
        · rw [h1]; exact hbx
        · exact hall y h2
      · right
        refine ⟨i + 1, by simpa using hi, ?_, hlt, ?_, ?_⟩
        · rw [heq, hr]
          rfl
        · intro j hj hji
          match j, hj, hji with
          | 0, _, _ => exact lt_of_le_of_lt hbx hlt
          | j + 1, hj, hji => exact hfirst j (by simpa using hj) (by omega)
        · intro j hj
          match j, hj with
          | 0, _ => exact le_of_lt (lt_of_le_of_lt hbx hlt)
          | j + 1, hj => exact hmax j (by simpa using hj)

theorem scoredSentences_length (content : String) (ss : List String) :
    (scoredSentences content ss).length = ss.length := by
  simp [scoredSentences]

theorem scoredSentences_get (content : String) (ss : List String) (j : Nat)
    (hj : j < (scoredSentences content ss).length) (hj2 : j < ss.length) :
    (scoredSentences content ss).get ⟨j, hj⟩ =
      (sentenceScore content (ss.get ⟨j, hj2⟩) *
        (1 - ((j : ℚ) / (ss.length : ℚ)) * (3/10)), ss.get ⟨j, hj2⟩) := by
  simp only [scoredSentences, List.get_eq_getElem, List.getElem_map, List.getElem_enum]

/-- Claim C7: with at least two sentences, generate_summary returns the
sentence maximizing score times positional boost 1 - (index/total)*(3/10),
earliest index winning ties, truncated to max_length with the ellipsis
marker appended exactly when truncation occurred. -/
theorem C7_summary_best_sentence (content : String) (maxLength : Nat)
    (h2 : 2 ≤ (splitSentences content).length) :
    ∃ i, ∃ hi : i < (splitSentences content).length,
      (∀ j, ∀ hj : j < (splitSentences content).length,
        sentenceScore content ((splitSentences content).get ⟨j, hj⟩) *
          (1 - ((j : ℚ) / ((splitSentences content).length : ℚ)) * (3/10)) ≤
        sentenceScore content ((splitSentences content).get ⟨i, hi⟩) *
          (1 - ((i : ℚ) / ((splitSentences content).length : ℚ)) * (3/10))) ∧
      (∀ j, ∀ hj : j < (splitSentences content).length, j < i →
        sentenceScore content ((splitSentences content).get ⟨j, hj⟩) *
          (1 - ((j : ℚ) / ((splitSentences content).length : ℚ)) * (3/10)) <
        sentenceScore content ((splitSentences content).get ⟨i, hi⟩) *
          (1 - ((i : ℚ) / ((splitSentences content).length : ℚ)) * (3/10))) ∧
      generateSummary content maxLength =
        (if maxLength < ((splitSentences content).get ⟨i, hi⟩).length
         then pyTakeS maxLength ((splitSentences content).get ⟨i, hi⟩) ++ "..."
         else (splitSentences content).get ⟨i, hi⟩) := by
  obtain ⟨s0, tl0, hss0⟩ : ∃ a l, splitSentences content = a :: l := by
    cases hq : splitSentences content with
    | nil => rw [hq] at h2; simp at h2
    | cons a l => exact ⟨a, l, rfl⟩
  obtain ⟨s1, rest, htl⟩ : ∃ a l, tl0 = a :: l := by
    cases hq : tl0 with
    | nil => rw [hq] at hss0; rw [hss0] at h2; simp at h2
    | cons a l => exact ⟨a, l, rfl⟩
  subst htl
  have hss : splitSentences content = s0 :: s1 :: rest := hss0
  obtain ⟨y, ys, hsc⟩ : ∃ y ys, scoredSentences content (s0 :: s1 :: rest) = y :: ys := by
    cases hq : scoredSentences content (s0 :: s1 :: rest) with
    | nil =>
      have hl := scoredSentences_length content (s0 :: s1 :: rest)
      rw [hq] at hl
      simp at hl
    | cons a l => exact ⟨a, l, rfl⟩
  have hgs : generateSummary content maxLength =
      (if maxLength < (pyMaxByFst y ys).2.length
       then pyTakeS maxLength (pyMaxByFst y ys).2 ++ "..." else (pyMaxByFst y ys).2) := by
    simp only [generateSummary, hss, hsc]
  have hslen : (scoredSentences content (s0 :: s1 :: rest)).length =
      (s0 :: s1 :: rest).length := scoredSentences_length content _
  have hyslen : ys.length + 1 = (s0 :: s1 :: rest).length := by
    rw [← hslen, hsc]; simp
  have h00 : (0 : Nat) < (s0 :: s1 :: rest).length := by simp
  have hget : ∀ (j : Nat) (hj : j < (s0 :: s1 :: rest).length),
      (scoredSentences content (s0 :: s1 :: rest)).get ⟨j, by rw [hslen]; exact hj⟩ =
        (sentenceScore content ((s0 :: s1 :: rest).get ⟨j, hj⟩) *
          (1 - ((j : ℚ) / (((s0 :: s1 :: rest) : List String).length : ℚ)) * (3/10)),
         (s0 :: s1 :: rest).get ⟨j, hj⟩) := by
    intro j hj
    exact scoredSentences_get content (s0 :: s1 :: rest) j _ hj
  have hy : y = (sentenceScore content ((s0 :: s1 :: rest).get ⟨0, h00⟩) *
      (1 - ((0 : ℚ) / (((s0 :: s1 :: rest) : List String).length : ℚ)) * (3/10)),
      (s0 :: s1 :: rest).get ⟨0, h00⟩) := by
    have e0 : (scoredSentences content (s0 :: s1 :: rest)).get
        ⟨0, by rw [hslen]; exact h00⟩ = y :=
      (List.get_of_eq hsc _).trans rfl
    have h0 := hget 0 h00
    rw [e0] at h0
    simpa using h0
  have hmidE : ∀ (j : Nat) (hj2 : j < ys.length) (hj : j + 1 < (s0 :: s1 :: rest).length),
      ys.get ⟨j, hj2⟩ =
        (sentenceScore content ((s0 :: s1 :: rest).get ⟨j + 1, hj⟩) *
          (1 - (((j + 1 : Nat) : ℚ) / (((s0 :: s1 :: rest) : List String).length : ℚ)) *
            (3/10)),
         (s0 :: s1 :: rest).get ⟨j + 1, hj⟩) := by
    intro j hj2 hj
    have e0 : (scoredSentences content (s0 :: s1 :: rest)).get
        ⟨j + 1, by rw [hslen]; exact hj⟩ = ys.get ⟨j, hj2⟩ :=
      (List.get_of_eq hsc _).trans rfl
    have h0 := hget (j + 1) hj
    rw [e0] at h0
    exact h0
  rw [hss]
  rcases pyMaxByFst_spec ys y with ⟨hr, hall⟩ | ⟨i, hi, hr, hlt, hfirst, hmax⟩
  · refine ⟨0, h00, ?_, ?_, ?_⟩
    · intro j hj
      match j, hj with
      | 0, hj => exact le_refl _
      | j + 1, hj =>
        have hj2 : j < ys.length := by omega
        have h1 := hall _ (List.get_mem ys j hj2)
        rw [congrArg Prod.fst (hmidE j hj2 hj), congrArg Prod.fst hy] at h1
        exact h1
    · intro j hj hj0
      omega
    · rw [hgs, hr, congrArg Prod.snd hy]
  · have hiS : i + 1 < (s0 :: s1 :: rest).length := by omega
    refine ⟨i + 1, hiS, ?_, ?_, ?_⟩
    · intro j hj
      match j, hj with
      | 0, hj =>
        have h1 := le_of_lt hlt
        rw [congrArg Prod.fst hy, congrArg Prod.fst (hmidE i hi hiS)] at h1
        exact h1
      | j + 1, hj =>
        have hj2 : j < ys.length := by omega
        have h1 := hmax j hj2
        rw [congrArg Prod.fst (hmidE j hj2 hj), congrArg Prod.fst (hmidE i hi hiS)] at h1
        exact h1
    · intro j hj hji
      match j, hj, hji with
      | 0, hj, _ =>
        have h1 := hlt
        rw [congrArg Prod.fst hy, congrArg Prod.fst (hmidE i hi hiS)] at h1
        exact h1
      | j + 1, hj, hji =>
        have hj2 : j < ys.length := by omega
        have h1 := hfirst j hj2 (by omega)
        rw [congrArg Prod.fst (hmidE j hj2 hj), congrArg Prod.fst (hmidE i hi hiS)] at h1
        exact h1
    · rw [hgs, hr, congrArg Prod.snd (hmidE i hi hiS)]

/-- Witness for claim C7 at a concrete two-sentence content. -/
theorem C7_summary_witness :
    2 ≤ (splitSentences "alpha beta. alpha gamma.").length ∧
    (∃ i, ∃ hi : i < (splitSentences "alpha beta. alpha gamma.").length,
      (∀ j, ∀ hj : j < (splitSentences "alpha beta. alpha gamma.").length,
        sentenceScore "alpha beta. alpha gamma."
            ((splitSentences "alpha beta. alpha gamma.").get ⟨j, hj⟩) *
          (1 - ((j : ℚ) / ((splitSentences "alpha beta. alpha gamma.").length : ℚ)) * (3/10)) ≤
        sentenceScore "alpha beta. alpha gamma."
            ((splitSentences "alpha beta. alpha gamma.").get ⟨i, hi⟩) *
          (1 - ((i : ℚ) / ((splitSentences "alpha beta. alpha gamma.").length : ℚ)) * (3/10))) ∧
      (∀ j, ∀ hj : j < (splitSentences "alpha beta. alpha gamma.").length, j < i →
        sentenceScore "alpha beta. alpha gamma."
            ((splitSentences "alpha beta. alpha gamma.").get ⟨j, hj⟩) *
          (1 - ((j : ℚ) / ((splitSentences "alpha beta. alpha gamma.").length : ℚ)) * (3/10)) <
        sentenceScore "alpha beta. alpha gamma."
            ((splitSentences "alpha beta. alpha gamma.").get ⟨i, hi⟩) *
          (1 - ((i : ℚ) / ((splitSentences "alpha beta. alpha gamma.").length : ℚ)) * (3/10))) ∧
      generateSummary "alpha beta. alpha gamma." 100 =
        (if 100 < ((splitSentences "alpha beta. alpha gamma.").get ⟨i, hi⟩).length
         then pyTakeS 100 ((splitSentences "alpha beta. alpha gamma.").get ⟨i, hi⟩) ++ "..."
         else (splitSentences "alpha beta. alpha gamma.").get ⟨i, hi⟩)) :=
  ⟨by decide, C7_summary_best_sentence "alpha beta. alpha gamma." 100 (by decide)⟩

/-- Counterexample for claim C5: the zero-sentence branch of
generate_summary appends the ellipsis marker unconditionally, so the
summary of empty text is the marker, not the empty truncated text. -/
theorem C5_counterexample :
    generateSummary "" 100 = "..." ∧ ¬ generateSummary "" 100 = "" := by
  constructor
  · decide
  · decide

/-- Claim C5 as amended: empty text yields empty topic and keyword lists,
and a summary equal to the truncated (hence empty) text with the ellipsis
marker appended, that is, the three-dot marker itself. -/
theorem C5_empty_text (maxLength : Nat) :
    extractTopics "" = [] ∧ extractKeywords "" maxLength = [] ∧
    generateSummary "" maxLength = "..." := by
  refine ⟨by decide, ?_, ?_⟩
  · simp [extractKeywords, tokenize, lowerS, wordRunsAux, mostCommon, rankByCount,
      dedupFirst, dedupFirstAux]
  · simp [generateSummary, splitSentences, splitSenGo, pyStripList, pyTakeS]

theorem createContentSegmentsFrom_conf_map : ∀ (l : List TranscriptSegment) (i : Nat),
    (createContentSegmentsFrom i l).map (fun c => c.confidence) =
      l.map (fun s => confidenceUsedSpec s.confidence) := by
  intro l
  induction l with
  | nil => intro i; rfl
  | cons s rest ih =>
    intro i
    simp only [createContentSegmentsFrom, List.map_cons, ih]
    rfl

/-- Counterexample for claim C6: with a negative-duration segment the
importance leaves the unit interval (the source caps only above), and a
supplied segment confidence of 0.0 is replaced by the 0.8 default (Python
truthiness), not used as provided. -/
theorem C6_counterexample :
    calculateImportance ⟨"s", "c", 100, 0, [], [], "", 1/2, 0, 0⟩ < 0 ∧
    (createContentSegments [⟨0, 0, 0, "x", some 0, none⟩]).map (fun c => c.confidence) =
      [8/10] ∧ ((8 : ℚ)/10 ≠ 0) := by
  refine ⟨?_, ?_, by norm_num⟩
  · norm_num [calculateImportance, min_def]
  · rw [createContentSegments, createContentSegmentsFrom_conf_map]
    simp [confidenceUsedSpec]

/-- Claim C6 as amended: calculate_importance is the spec's weighted-sum
formula capped above at 1 (not clamped below); the result lies in the unit
interval whenever the segment confidence is non-negative and the segment
duration is non-negative; and the confidence used by the content-segment
builder is 0.8 exactly when the source segment supplies none or supplies
0.0, otherwise the supplied value. -/
theorem C6_importance_and_confidence (seg : ContentSegment) :
    calculateImportance seg = importanceFormulaSpec seg.word_count seg.confidence
      (seg.timestamp_end - seg.timestamp_start) ∧
    (0 ≤ seg.confidence → seg.timestamp_start ≤ seg.timestamp_end →
      0 ≤ calculateImportance seg ∧ calculateImportance seg ≤ 1) ∧
    (∀ (l : List TranscriptSegment),
      (createContentSegments l).map (fun c => c.confidence) =
        l.map (fun s => confidenceUsedSpec s.confidence)) := by
  refine ⟨rfl, ?_, fun l => createContentSegmentsFrom_conf_map l 0⟩
  intro hconf hdur
  have hw : (0 : ℚ) ≤ min ((seg.word_count : ℚ) / 100) 1 :=
    le_min (div_nonneg (Nat.cast_nonneg _) (by norm_num)) zero_le_one
  have hd : (0 : ℚ) ≤ min ((seg.timestamp_end - seg.timestamp_start) / 60) 1 :=
    le_min (div_nonneg (by linarith) (by norm_num)) zero_le_one
  constructor
  · simp only [calculateImportance]
    refine le_min ?_ zero_le_one
    have h1 : (0 : ℚ) ≤ min ((seg.word_count : ℚ) / 100) 1 * (3/10) := by positivity
    have h2 : (0 : ℚ) ≤ seg.confidence * (4/10) := by positivity
    have h3 : (0 : ℚ) ≤ min ((seg.timestamp_end - seg.timestamp_start) / 60) 1 * (3/10) := by
      positivity
    linarith
  · simp only [calculateImportance]
    exact min_le_right _ _

/-- Witness for claim C6 at a concrete well-formed content segment. -/
theorem C6_importance_witness :
    ((0 : ℚ) ≤ (⟨"seg_0", "alpha", 0, 30, [], [], "", 1/2, 4/5, 5⟩ :
        ContentSegment).confidence ∧
      (⟨"seg_0", "alpha", 0, 30, [], [], "", 1/2, 4/5, 5⟩ :
        ContentSegment).timestamp_start ≤
      (⟨"seg_0", "alpha", 0, 30, [], [], "", 1/2, 4/5, 5⟩ :
        ContentSegment).timestamp_end) ∧
    (0 ≤ calculateImportance ⟨"seg_0", "alpha", 0, 30, [], [], "", 1/2, 4/5, 5⟩ ∧
      calculateImportance ⟨"seg_0", "alpha", 0, 30, [], [], "", 1/2, 4/5, 5⟩ ≤ 1) :=
  ⟨⟨by norm_num, by norm_num⟩,
    (C6_importance_and_confidence ⟨"seg_0", "alpha", 0, 30, [], [], "", 1/2, 4/5, 5⟩).2.1
      (by norm_num) (by norm_num)⟩

/-- Counterexample for claim C9: a retained segment whose text is already
clean keeps its original raw text in the caller's list after
preprocessing, so the caller's transcript can still hold the original raw
text of a retained segment. -/
theorem C9_counterexample :
    (preprocessSegments [⟨0, 0, 5, "hello world", none, none⟩]).processed =
      [⟨0, 0, 5, "hello world", none, none⟩] ∧
    (preprocessSegments [⟨0, 0, 5, "hello world", none, none⟩]).segmentsAfter =
      [⟨0, 0, 5, "hello world", none, none⟩] := by
  constructor
  · decide
  · decide

/-- Claim C9 as amended: preprocessing mutates the caller's list in place,
overwriting each retained segment's text with the cleaned text and leaving
dropped segments untouched; afterwards a retained segment differs from its
original exactly as far as cleaning changed its text (it still holds the
raw text when cleaning was the identity on it). -/
theorem C9_preprocess_state (segs : List TranscriptSegment) :
    (preprocessSegments segs).segmentsAfter = segs.map preprocessStateTransform ∧
    (preprocessSegments segs).processed = segs.filterMap
      (fun s => if 10 ≤ (pyStripS (cleanText s.text)).length
        then some {s with text := cleanText s.text} else none) ∧
    (∀ s ∈ segs, keepSegment s = false → preprocessStateTransform s = s) := by
  refine ⟨?_, ?_, ?_⟩
  · induction segs with
    | nil => rfl
    | cons s rest ih =>
      by_cases hc : (pyStripS (cleanText s.text)).length < 10
      · simp only [preprocessSegments, if_pos hc, List.map_cons, ih]
        rw [preprocessStateTransform, if_neg (by omega)]
      · simp only [preprocessSegments, if_neg hc, List.map_cons, ih]
        rw [preprocessStateTransform, if_pos (by omega)]
  · induction segs with
    | nil => rfl
    | cons s rest ih =>
      by_cases hc : (pyStripS (cleanText s.text)).length < 10
      · simp only [preprocessSegments, if_pos hc, List.filterMap_cons]
        rw [if_neg (by omega)]
        exact ih
      · simp only [preprocessSegments, if_neg hc, List.filterMap_cons]
        rw [if_pos (by omega)]
        rw [ih]
  · intro s _ hk
    rw [preprocessStateTransform, if_neg ?_]
    intro hge
    rw [keepSegment, decide_eq_false_iff_not] at hk
    exact hk hge

theorem collapsedB_collapseWsAux : ∀ (l : List Char) (p : Bool),
    collapsedB p (collapseWsAux p l) = true := by
  intro l
  induction l with
  | nil => intro p; rfl
  | cons c cs ih =>
    intro p
    by_cases hc : isPySpace c = true
    · cases p with
      | true =>
        have hstep : collapseWsAux true (c :: cs) = collapseWsAux true cs := by
          simp [collapseWsAux, hc]
        rw [hstep]
        exact ih true
      | false =>
        have hstep : collapseWsAux false (c :: cs) = ' ' :: collapseWsAux true cs := by
          simp [collapseWsAux, hc]
        rw [hstep]
        have hunf : collapsedB false (' ' :: collapseWsAux true cs) =
            collapsedB true (collapseWsAux true cs) := by
          simp [collapsedB, isPySpace]
        rw [hunf]
        exact ih true
    · have hstep : collapseWsAux p (c :: cs) = c :: collapseWsAux false cs := by
        simp [collapseWsAux, hc]
      rw [hstep]
      have hunf : collapsedB p (c :: collapseWsAux false cs) =
          collapsedB false (collapseWsAux false cs) := by
        simp [collapsedB, hc]
      rw [hunf]
      exact ih false

theorem collapseWsAux_id_of_collapsed : ∀ (l : List Char) (p : Bool),
    collapsedB p l = true → collapseWsAux p l = l := by
  intro l
  induction l with
  | nil => intro p _; rfl
  | cons c cs ih =>
    intro p h
    by_cases hc : isPySpace c = true
    · have hunf : collapsedB p (c :: cs) = (!p && (c = ' ') && collapsedB true cs) := by
        simp [collapsedB, hc]
      rw [hunf] at h
      obtain ⟨⟨hp, hsp⟩, hrest⟩ := by simpa [Bool.and_eq_true] using h
      have hp2 : p = false := by simpa using hp
      subst hp2
      have hstep : collapseWsAux false (c :: cs) = ' ' :: collapseWsAux true cs := by
        simp [collapseWsAux, hc]
      rw [hstep, ih true hrest, hsp]
    · have hunf : collapsedB p (c :: cs) = collapsedB false cs := by
        simp [collapsedB, hc]
      rw [hunf] at h
      have hstep : collapseWsAux p (c :: cs) = c :: collapseWsAux false cs := by
        simp [collapseWsAux, hc]
      rw [hstep, ih false h]

theorem headNotSpace_dropWhile (l : List Char) :
    headNotSpace (l.dropWhile isPySpace) = true := by
  induction l with
  | nil => rfl
  | cons c cs ih =>
    by_cases hc : isPySpace c = true
    · rw [List.dropWhile_cons_of_pos hc]
      exact ih
    · rw [List.dropWhile_cons_of_neg (by simpa using hc)]
      simp [headNotSpace, hc]

theorem dropWhile_decomp : ∀ (l : List Char),
    ∃ u, u ++ l.dropWhile isPySpace = l := by
  intro l
  induction l with
  | nil => exact ⟨[], rfl⟩
  | cons c cs ih =>
    by_cases hc : isPySpace c = true
    · obtain ⟨u, hu⟩ := ih
      rw [List.dropWhile_cons_of_pos hc]
      exact ⟨c :: u, by simp [hu]⟩
    · rw [List.dropWhile_cons_of_neg (by simpa using hc)]
      exact ⟨[], rfl⟩

theorem headNotSpace_of_append (a t : List Char)
    (h : headNotSpace (a ++ t) = true) : headNotSpace a = true := by
  cases a with
  | nil => rfl
  | cons c cs => simpa [headNotSpace] using h

theorem headNotSpace_pyStrip (l : List Char) :
    headNotSpace (pyStripList l) = true := by
  obtain ⟨u, hu⟩ := dropWhile_decomp ((l.dropWhile isPySpace).reverse)
  have h2 : (pyStripList l) ++ u.reverse = l.dropWhile isPySpace := by
    have := congrArg List.reverse hu
    simpa [pyStripList, List.reverse_append] using this
  exact headNotSpace_of_append _ _ (h2 ▸ headNotSpace_dropWhile l)

theorem lastNotSpace_cons (a : Char) (x : List Char) (hx : x ≠ []) :
    lastNotSpace (a :: x) = lastNotSpace x := by
  cases x with
  | nil => exact absurd rfl hx
  | cons b bs => rfl

theorem headNotSpace_append_left (xs ys : List Char) (hx : xs ≠ []) :
    headNotSpace (xs ++ ys) = headNotSpace xs := by
  cases xs with
  | nil => exact absurd rfl hx
  | cons c cs => rfl

theorem lastNotSpace_eq_head_reverse : ∀ (l : List Char),
    lastNotSpace l = headNotSpace l.reverse := by
  intro l
  induction l with
  | nil => rfl
  | cons c cs ih =>
    cases cs with
    | nil => rfl
    | cons b bs =>
      rw [lastNotSpace_cons c (b :: bs) (by simp), ih]
      have hrev : (c :: b :: bs).reverse = (b :: bs).reverse ++ [c] := by simp
      rw [hrev, headNotSpace_append_left _ _ (by simp)]

theorem lastNotSpace_pyStrip (l : List Char) :
    lastNotSpace (pyStripList l) = true := by
  rw [lastNotSpace_eq_head_reverse]
  have h1 : (pyStripList l).reverse = (l.dropWhile isPySpace).reverse.dropWhile isPySpace := by
    simp [pyStripList]
  rw [h1]
  exact headNotSpace_dropWhile _

theorem headNotSpace_collapse (m : List Char) (h : headNotSpace m = true) :
    headNotSpace (collapseWsAux false m) = true := by
  cases m with
  | nil => rfl
  | cons c cs =>
    have hc : isPySpace c = false := by simpa [headNotSpace] using h
    have hstep : collapseWsAux false (c :: cs) = c :: collapseWsAux false cs := by
      simp [collapseWsAux, hc]
    rw [hstep]
    simpa [headNotSpace] using hc

theorem lastNotSpace_collapse : ∀ (m : List Char) (p : Bool),
    m ≠ [] → lastNotSpace m = true →
    collapseWsAux p m ≠ [] ∧ lastNotSpace (collapseWsAux p m) = true := by
  intro m
  induction m with
  | nil => intro p hne _; exact absurd rfl hne
  | cons c cs ih =>
    intro p _ hl
    cases cs with
    | nil =>
      have hc : isPySpace c = false := by simpa [lastNotSpace] using hl
      have hstep : collapseWsAux p [c] = [c] := by
        simp [collapseWsAux, hc]
      rw [hstep]
      exact ⟨by simp, by simpa [lastNotSpace] using hc⟩
    | cons b bs =>
      have hl2 : lastNotSpace (b :: bs) = true := by
        rw [← lastNotSpace_cons c (b :: bs) (by simp)]
        exact hl
      by_cases hc : isPySpace c = true
      · cases p with
        | true =>
          have hstep : collapseWsAux true (c :: b :: bs) = collapseWsAux true (b :: bs) := by
            simp [collapseWsAux, hc]
          rw [hstep]
          exact ih true (by simp) hl2
        | false =>
          have hstep : collapseWsAux false (c :: b :: bs) =
              ' ' :: collapseWsAux true (b :: bs) := by
            simp [collapseWsAux, hc]
          rw [hstep]
          obtain ⟨hne2, hl3⟩ := ih true (by simp) hl2
          refine ⟨by simp, ?_⟩
          rw [lastNotSpace_cons _ _ hne2]
          exact hl3
      · have hstep : collapseWsAux p (c :: b :: bs) = c :: collapseWsAux false (b :: bs) := by
          simp [collapseWsAux, hc]
        rw [hstep]
        obtain ⟨hne2, hl3⟩ := ih false (by simp) hl2
        refine ⟨by simp, ?_⟩
        rw [lastNotSpace_cons _ _ hne2]
        exact hl3

theorem dropWhile_id_of_headNotSpace (l : List Char) (h : headNotSpace l = true) :
    l.dropWhile isPySpace = l := by
  cases l with
  | nil => rfl
  | cons c cs =>
    have hc : isPySpace c = false := by simpa [headNotSpace] using h
    rw [List.dropWhile_cons_of_neg (by simpa using hc)]

theorem pyStrip_id_of_ends (l : List Char) (hh : headNotSpace l = true)
    (hl : lastNotSpace l = true) : pyStripList l = l := by
  rw [pyStripList, dropWhile_id_of_headNotSpace l hh]
  rw [dropWhile_id_of_headNotSpace l.reverse (by rw [← lastNotSpace_eq_head_reverse]; exact hl)]
  exact List.reverse_reverse l

theorem normalizeWs_idem (l : List Char) :
    normalizeWs (normalizeWs l) = normalizeWs l := by
  by_cases hne : pyStripList l = []
  · have h0 : normalizeWs l = [] := by rw [normalizeWs, hne]; rfl
    rw [h0]
    rfl
  · have hh : headNotSpace (normalizeWs l) = true :=
      headNotSpace_collapse _ (headNotSpace_pyStrip l)
    have hl : lastNotSpace (normalizeWs l) = true :=
      (lastNotSpace_collapse (pyStripList l) false hne (lastNotSpace_pyStrip l)).2
    rw [normalizeWs, pyStrip_id_of_ends _ hh hl]
    exact collapseWsAux_id_of_collapsed _ false (collapsedB_collapseWsAux (pyStripList l) false)

theorem subAltsGo_id_of_no_match (alts : List (List Char)) : ∀ (l : List Char) (pw : Bool),
    hasAltMatch alts pw l = false → subAltsGo alts 0 pw l = l := by
  intro l
  induction l with
  | nil => intro pw _; rfl
  | cons c cs ih =>
    intro pw h
    have hunf : hasAltMatch alts pw (c :: cs) =
        ((!pw && (tryMatchLen alts (c :: cs)).isSome) || hasAltMatch alts (isWordChar c) cs) :=
      rfl
    rw [hunf, Bool.or_eq_false_iff, Bool.and_eq_false_iff] at h
    obtain ⟨h1, h2⟩ := h
    cases hpw : pw with
    | true =>
      have hstep : subAltsGo alts 0 true (c :: cs) = c :: subAltsGo alts 0 (isWordChar c) cs := by
        simp [subAltsGo]
      rw [hstep, ih (isWordChar c) h2]
    | false =>
      rw [hpw] at h1
      have hnone : tryMatchLen alts (c :: cs) = none := by
        rcases h1 with h1 | h1
        · simp at h1
        · exact Option.not_isSome_iff_eq_none.mp (by simp [h1])
      have hstep : subAltsGo alts 0 false (c :: cs) =
          c :: subAltsGo alts 0 (isWordChar c) cs := by
        simp [subAltsGo, hnone]
      rw [hstep, ih (isWordChar c) h2]

theorem subSpanGo_id_of_no_match (op cl : Char) : ∀ (l : List Char),
    hasSpanMatch op cl l = false → subSpanGo op cl 0 l = l := by
  intro l
  induction l with
  | nil => intro _; rfl
  | cons c cs ih =>
    intro h
    have hunf : hasSpanMatch op cl (c :: cs) =
        ((c = op && (firstIdx cl cs).isSome) || hasSpanMatch op cl cs) := rfl
    rw [hunf, Bool.or_eq_false_iff, Bool.and_eq_false_iff] at h
    obtain ⟨h1, h2⟩ := h
    by_cases hco : c = op
    · have hnone : firstIdx cl cs = none := by
        rcases h1 with h1 | h1
        · simp [hco] at h1
        · exact Option.not_isSome_iff_eq_none.mp (by simp [h1])
      have hstep : subSpanGo op cl 0 (c :: cs) = c :: subSpanGo op cl 0 cs := by
        simp [subSpanGo, hco, hnone]
      rw [hstep, ih h2]
    · have hstep : subSpanGo op cl 0 (c :: cs) = c :: subSpanGo op cl 0 cs := by
        simp [subSpanGo, hco]
      rw [hstep, ih h2]

/-- Counterexample for claim C4: cleaning is not idempotent.  Removing the
filler word inside a phrase can assemble a filler phrase that only the
second pass removes: one pass turns this input into a filler phrase, a
second pass erases it. -/
theorem C4_counterexample :
    cleanText "you like know" = "you know" ∧
    cleanText (cleanText "you like know") = "" ∧
    cleanText (cleanText "you like know") ≠ cleanText "you like know" := by
  refine ⟨by decide, by decide, by decide⟩

/-- Claim C4 as amended: the cleaner is idempotent on every input whose
once-cleaned text has no residual filler-word, filler-phrase, bracketed or
parenthesized match (the counterexample violates exactly this residue
condition). -/
theorem C4_clean_idempotent_of_residual_free (t : String)
    (h : cleanResidualFree (cleanText t) = true) :
    cleanText (cleanText t) = cleanText t := by
  have hres := h
  rw [cleanResidualFree] at hres
  simp only [Bool.and_eq_true, Bool.not_eq_true'] at hres
  obtain ⟨⟨⟨h1, h2⟩, h3⟩, h4⟩ := hres
  have hdata : (cleanText t).data =
      normalizeWs (subSpan '(' ')' (subSpan '[' ']'
        (subAlts phraseFillers (subAlts wordFillers (normalizeWs t.data))))) := rfl
  have hn : normalizeWs (cleanText t).data = (cleanText t).data := by
    rw [hdata]
    exact normalizeWs_idem _
  have e1 : subAlts wordFillers (cleanText t).data = (cleanText t).data :=
    subAltsGo_id_of_no_match wordFillers _ false h1
  have e2 : subAlts phraseFillers (cleanText t).data = (cleanText t).data :=
    subAltsGo_id_of_no_match phraseFillers _ false h2
  have e3 : subSpan '[' ']' (cleanText t).data = (cleanText t).data :=
    subSpanGo_id_of_no_match '[' ']' _ h3
  have e4 : subSpan '(' ')' (cleanText t).data = (cleanText t).data :=
    subSpanGo_id_of_no_match '(' ')' _ h4
  have hclean : cleanList (cleanText t).data = (cleanText t).data := by
    rw [cleanList, hn, e1, e2, e3, e4]
    exact hn
  show String.mk (cleanList (cleanText t).data) = cleanText t
  rw [hclean]

/-- Witness for claim C4 at a concrete input whose cleaned form is free of
residual matches. -/
theorem C4_clean_idempotent_witness :
    cleanResidualFree (cleanText "hello  world") = true ∧
    cleanText (cleanText "hello  world") = cleanText "hello  world" :=
  ⟨by decide, C4_clean_idempotent_of_residual_free "hello  world" (by decide)⟩
